import Mathlib

/-!
# Verification of the Parquet column-value encoders (`src/encodings/encoding.rs`)

This file gives a shallow embedding of the encoders in
`src/encodings/encoding.rs` — the dictionary encoder, the
DELTA_BINARY_PACKED encoder, the DELTA_LENGTH_BYTE_ARRAY and
DELTA_BYTE_ARRAY encoders and the RLE value encoder — and proves the
behavioural properties claimed in the specification.

The repository's `util/bit_util.rs` (BitWriter, `log2`,
`num_required_bits`), `util/hash_util.rs` (`hash`) and
`encodings/rle.rs` (RleEncoder) are not part of the sources; the
definitions for those components are modelled from the spec (§4.1, §4.2)
and carry a doc comment saying so.  Everything else is translated
directly from `encoding.rs`.

Machine integers are embedded as `Nat`/`Int` with explicit `% 2^w`
reductions at the places the Rust code wraps.  Byte streams are
`List Nat` with every element `< 256`; bit streams are `List Bool`
(LSB-first, as produced by the BitWriter).
-/

set_option maxHeartbeats 1000000

namespace ParquetEnc

/-! ## Bit- and byte-level helpers -/

/-- The low `w` bits of `v`, LSB first (`BitWriter::put_value` writes the
low `num_bits` of `v` LSB-first). -/
def natToBits : Nat → Nat → List Bool
  | 0, _ => []
  | w + 1, v => (v % 2 = 1) :: natToBits w (v / 2)

/-- Value of an LSB-first bit string. -/
def bitsToNat : List Bool → Nat
  | [] => 0
  | b :: bs => (if b then 1 else 0) + 2 * bitsToNat bs

/-- Group an LSB-first bit stream into bytes; the final partial byte is
zero-padded (spec §4.1: `flush_buffer` pads the partial final byte). -/
def bitsToBytes : List Bool → List Nat
  | [] => []
  | b0 :: b1 :: b2 :: b3 :: b4 :: b5 :: b6 :: b7 :: rest =>
      bitsToNat [b0, b1, b2, b3, b4, b5, b6, b7] :: bitsToBytes rest
  | short => [bitsToNat short]

/-- Bits of a byte sequence, LSB-first within each byte. -/
def bytesToBits : List Nat → List Bool
  | [] => []
  | b :: bs => natToBits 8 b ++ bytesToBits bs

/-- Modelled from the spec: unsigned LEB128 (§6: "7 bits LSB-first per
byte with continuation bit"); `bit_util.rs` is not among the sources.
The fuel `10` covers every `u64` value (`10 * 7 ≥ 64` bits). -/
def vlqBytesAux : Nat → Nat → List Nat
  | 0, v => [v % 128]
  | fuel + 1, v => if v < 128 then [v] else (v % 128 + 128) :: vlqBytesAux fuel (v / 128)

/-- ULEB128 encoding of a `u64` value. -/
def vlqBytes (v : Nat) : List Nat := vlqBytesAux 10 v

/-- Modelled from the spec: the zig-zag mapping `(v <<< 1) ^^^ (v >>> 63)`
on `i64` (§4.1); as a function on the represented integer this is
`2v` for `v ≥ 0` and `-2v - 1` for `v < 0` (`bit_util.rs` is not among
the sources). -/
def zigzag (v : Int) : Nat := (if 0 ≤ v then 2 * v else -2 * v - 1).toNat

/-- Zig-zag VLQ byte encoding of a signed value. -/
def zigzagVlqBytes (v : Int) : List Nat := vlqBytes (zigzag v)

/-- `w`-byte little-endian encoding of `v` (used for `i32::to_le` /
`as_bytes` writes). -/
def leBytes : Nat → Nat → List Nat
  | 0, _ => []
  | w + 1, v => v % 256 :: leBytes w (v / 256)

/-- Modelled from the spec: `num_required_bits`/`log2`'s bit-counting
loop on a `u64` (`util/bit_util.rs` is not among the sources); the fuel
64 covers every `u64` value.  `bitCountAux 64 m` is the number of
significant bits of `m`. -/
def bitCountAux : Nat → Nat → Nat
  | 0, _ => 0
  | fuel + 1, m => if m = 0 then 0 else bitCountAux fuel (m / 2) + 1

/-- Modelled from the spec: fewest bits that can represent `x`
(glossary: "Bit width — number of bits used to store an unsigned
value"); `bit_util.rs` is not among the sources. -/
def numRequiredBits (x : Nat) : Nat := bitCountAux 64 x

/-- Modelled from the spec: `log2(x)` of `bit_util.rs` computes
`⌈log₂ x⌉` (§4.3.2: `bit_width` is "⌈log₂(num_entries)⌉"); the
sources do not contain `bit_util.rs`.  The argument is a `u64`. -/
def log2u64 (x : Nat) : Nat := if x ≤ 1 then 0 else bitCountAux 64 (x - 1)

/-! ## BitWriter (modelled from spec §4.1; `bit_util.rs` is not among
the sources).  The state is the LSB-first bit stream written so far. -/

structure BitWriter where
  bits : List Bool
deriving Repr, DecidableEq

namespace BitWriter

def new : BitWriter := ⟨[]⟩

/-- Zero-pad the stream to a byte boundary (used by the byte-aligned
operations of spec §4.1). -/
def padToByte (w : BitWriter) : BitWriter :=
  ⟨w.bits ++ List.replicate ((8 - w.bits.length % 8) % 8) false⟩

/-- `put_value(v, num_bits)`: append the low `num_bits` of `v`,
LSB-first. -/
def putValue (w : BitWriter) (v : Nat) (numBits : Nat) : BitWriter :=
  ⟨w.bits ++ natToBits numBits v⟩

/-- `put_vlq_int(v)`: byte-aligned ULEB128 write. -/
def putVlqInt (w : BitWriter) (v : Nat) : BitWriter :=
  ⟨w.padToByte.bits ++ bytesToBits (vlqBytes v)⟩

/-- `put_zigzag_vlq_int(v)`: zig-zag then ULEB128, byte-aligned. -/
def putZigzagVlqInt (w : BitWriter) (v : Int) : BitWriter :=
  ⟨w.padToByte.bits ++ bytesToBits (zigzagVlqBytes v)⟩

/-- `flush_buffer()`: the bytes written so far, final partial byte
zero-padded. -/
def flushBuffer (w : BitWriter) : List Nat := bitsToBytes w.bits

end BitWriter

/-! ## i32 / i64 arithmetic helpers -/

/-- Truncation of an integer to `i32` (`as i32` in Rust): keep the low
32 bits and reinterpret them as a signed two's-complement value. -/
def asI32 (x : Int) : Int := (x + 2 ^ 31) % 2 ^ 32 - 2 ^ 31

/-- `i32::wrapping_sub` on values already in `i32` range: subtract and
wrap at the 32-bit boundary. -/
def i32WrapSub (a b : Int) : Int := asI32 (a - b)

/-- Truncation of an integer to `i64` (`i64::wrapping_sub` wraps at the
64-bit boundary). -/
def asI64 (x : Int) : Int := (x + 2 ^ 63) % 2 ^ 64 - 2 ^ 63

/-- `i64::wrapping_sub`. -/
def i64WrapSub (a b : Int) : Int := asI64 (a - b)

/-- `i64::max_value()` (initial accumulator of the min-delta fold in
`flush_block_values`). -/
def i64Max : Int := 2 ^ 63 - 1

/-- `i64::min_value()` (initial accumulator of the max-delta fold in
`flush_block_values`). -/
def i64Min : Int := -(2 ^ 63)

/-! ## `DeltaBitPackEncoderConversion` (encoding.rs lines 667-745)

The trait provides `subtract` and `subtract_u64`; `as_i64` is the
identity on the represented integer for both supported types. -/

structure DeltaConv where
  subtract : Int → Int → Int
  subtractU64 : Int → Int → Nat

/-- `impl DeltaBitPackEncoderConversion<Int32Type>`:
`subtract` is `(left as i32).wrapping_sub(right as i32) as i64`,
`subtract_u64` is `(left as i32).wrapping_sub(right as i32) as u32 as u64`. -/
def int32Conv : DeltaConv where
  subtract left right := i32WrapSub (asI32 left) (asI32 right)
  subtractU64 left right := ((asI32 left - asI32 right) % 2 ^ 32).toNat

/-- `impl DeltaBitPackEncoderConversion<Int64Type>`:
`subtract` is `left.wrapping_sub(right)`, `subtract_u64` is
`left.wrapping_sub(right) as u64`. -/
def int64Conv : DeltaConv where
  subtract left right := i64WrapSub left right
  subtractU64 left right := ((left - right) % 2 ^ 64).toNat

/-! ## DeltaBitPackEncoder (encoding.rs lines 489-664) -/

/-- State of `DeltaBitPackEncoder` (encoding.rs lines 489-501).  Values
are the integers the `i32`/`i64` inputs represent. -/
structure DeltaBitPackEncoder where
  pageHeaderWriter : BitWriter
  bitWriter : BitWriter
  totalValues : Nat
  firstValue : Int
  currentValue : Int
  blockSize : Nat
  miniBlockSize : Nat
  numMiniBlocks : Nat
  valuesInBlock : Nat
  deltas : List Int
deriving Repr, DecidableEq

namespace DeltaBitPackEncoder

/-- `DeltaBitPackEncoder::new` (encoding.rs lines 505-525):
`block_size = 128`, `num_mini_blocks = 4`, `mini_block_size = 32`,
`deltas = vec![0; block_size]`. -/
def new : DeltaBitPackEncoder where
  pageHeaderWriter := BitWriter.new
  bitWriter := BitWriter.new
  totalValues := 0
  firstValue := 0
  currentValue := 0
  blockSize := 128
  miniBlockSize := 128 / 4
  numMiniBlocks := 4
  valuesInBlock := 0
  deltas := List.replicate 128 0

/-- `write_page_header` (encoding.rs lines 529-541): VLQ of block size,
number of mini blocks and total value count, then zig-zag VLQ of the
first value. -/
def writePageHeader (s : DeltaBitPackEncoder) : DeltaBitPackEncoder :=
  { s with pageHeaderWriter :=
      ((((s.pageHeaderWriter.putVlqInt s.blockSize).putVlqInt
          s.numMiniBlocks).putVlqInt s.totalValues).putZigzagVlqInt s.firstValue) }

/-- The mini-block loop of `flush_block_values` (encoding.rs lines
564-595).  Returns the bit widths recorded in the reserved header
bytes, the bit-packed mini-block payload, and the remaining
`values_in_block` counter.  Iteration `i` encodes
`n = min mini_block_size remaining` deltas starting at
`deltas[i * mini_block_size]`, padding the mini block with `put_value(0,
bit_width)` up to `mini_block_size` values. -/
def miniBlockLoop (conv : DeltaConv) (deltas : List Int) (mbs : Nat) (minDelta : Int) :
    Nat → Nat → Nat → List Nat × List Bool × Nat
  | 0, _, remaining => ([], [], remaining)
  | iters + 1, i, remaining =>
    let n := min mbs remaining
    if n = 0 then ([], [], remaining)
    else
      let block := (deltas.drop (i * mbs)).take n
      let maxDelta := block.foldl max i64Min
      let bw := numRequiredBits (conv.subtractU64 maxDelta minDelta)
      let valueBits := (block.map fun d => natToBits bw (conv.subtractU64 d minDelta)).foldr
        (· ++ ·) []
      let padBits := List.replicate ((mbs - n) * bw) false
      let (ws, bs, rem) := miniBlockLoop conv deltas mbs minDelta iters (i + 1) (remaining - n)
      (bw :: ws, valueBits ++ padBits ++ bs, rem)

/-- `flush_block_values` (encoding.rs lines 544-603): write the zig-zag
VLQ of the min delta, reserve `num_mini_blocks` width bytes
(`get_next_byte_ptr`; unwritten reserved bytes stay `0`), then the
bit-packed mini blocks. -/
def flushBlockValues (conv : DeltaConv) (s : DeltaBitPackEncoder) : DeltaBitPackEncoder :=
  if s.valuesInBlock = 0 then s
  else
    let minDelta := (s.deltas.take s.valuesInBlock).foldl min i64Max
    let (widths, bodyBits, rem) :=
      miniBlockLoop conv s.deltas s.miniBlockSize minDelta s.numMiniBlocks 0 s.valuesInBlock
    let widthBytes := widths ++ List.replicate (s.numMiniBlocks - widths.length) 0
    let w := (s.bitWriter.putZigzagVlqInt minDelta).padToByte
    { s with
      bitWriter := ⟨w.bits ++ bytesToBits widthBytes ++ bodyBits⟩
      valuesInBlock := rem }

/-- The `while idx < values.len()` loop of `put` (encoding.rs lines
627-636): store the wrapping delta, advance `current_value`, and flush
the block when it reaches `block_size`. -/
def putLoop (conv : DeltaConv) : DeltaBitPackEncoder → List Int → DeltaBitPackEncoder
  | s, [] => s
  | s, v :: rest =>
    let s := { s with
      deltas := s.deltas.set s.valuesInBlock (conv.subtract v s.currentValue)
      currentValue := v
      valuesInBlock := s.valuesInBlock + 1 }
    let s := if s.valuesInBlock = s.blockSize then flushBlockValues conv s else s
    putLoop conv s rest

/-- `Encoder::put` for `DeltaBitPackEncoder` (encoding.rs lines
609-638). -/
def put (conv : DeltaConv) (s : DeltaBitPackEncoder) (values : List Int) :
    DeltaBitPackEncoder :=
  match values with
  | [] => s
  | first :: rest =>
    let (s, tail) :=
      if s.totalValues = 0 then
        ({ s with firstValue := first, currentValue := first }, rest)
      else (s, first :: rest)
    let s := { s with totalValues := s.totalValues + (first :: rest).length }
    putLoop conv s tail

/-- `Encoder::flush_buffer` for `DeltaBitPackEncoder` (encoding.rs lines
644-664): flush the partial block, write the page header, return
`pageHeaderBytes || bitWriterBytes` and reset the state. -/
def flushBuffer (conv : DeltaConv) (s : DeltaBitPackEncoder) :
    List Nat × DeltaBitPackEncoder :=
  let s := flushBlockValues conv s
  let s := writePageHeader s
  (s.pageHeaderWriter.flushBuffer ++ s.bitWriter.flushBuffer,
   { s with
      pageHeaderWriter := BitWriter.new
      bitWriter := BitWriter.new
      totalValues := 0
      firstValue := 0
      currentValue := 0
      valuesInBlock := 0 })

end DeltaBitPackEncoder

/-! ## Lemmas on the bit- and byte-level helpers -/

theorem natToBits_length (w v : Nat) : (natToBits w v).length = w := by
  induction w generalizing v with
  | zero => rfl
  | succ w ih => simp [natToBits, ih]

theorem mod_two_mul_split (v e : Nat) : v % (2 * e) = v % 2 + 2 * (v / 2 % e) := by
  rcases Nat.eq_zero_or_pos e with he | he
  · subst he
    simp only [Nat.mul_zero, Nat.mod_zero]
    omega
  · have h1 : v = 2 * e * (v / 2 / e) + (v % 2 + 2 * (v / 2 % e)) := by
      calc v = 2 * (v / 2) + v % 2 := by omega
        _ = 2 * (e * (v / 2 / e) + v / 2 % e) + v % 2 := by rw [Nat.div_add_mod (v / 2) e]
        _ = 2 * e * (v / 2 / e) + (v % 2 + 2 * (v / 2 % e)) := by ring
    have h2 : v % 2 + 2 * (v / 2 % e) < 2 * e := by
      have := Nat.mod_lt (v / 2) he
      omega
    conv_lhs => rw [h1]
    rw [Nat.mul_add_mod (2 * e) (v / 2 / e) _, Nat.mod_eq_of_lt h2]

theorem bitsToNat_natToBits (w v : Nat) : bitsToNat (natToBits w v) = v % 2 ^ w := by
  induction w generalizing v with
  | zero =>
    simp only [natToBits, bitsToNat]
    omega
  | succ w ih =>
    have hsplit : v % (2 ^ w * 2) = v % 2 + 2 * (v / 2 % 2 ^ w) := by
      rw [mul_comm (2 ^ w) 2]
      exact mod_two_mul_split v (2 ^ w)
    simp only [natToBits, bitsToNat, ih, pow_succ]
    rcases Nat.even_or_odd v with h | h
    · have h2 : v % 2 = 0 := Nat.even_iff.mp h
      simp only [h2, decide_eq_true_eq]
      norm_num
      omega
    · have h2 : v % 2 = 1 := Nat.odd_iff.mp h
      simp only [h2, decide_eq_true_eq]
      norm_num
      omega

theorem bytesToBits_append (a b : List Nat) :
    bytesToBits (a ++ b) = bytesToBits a ++ bytesToBits b := by
  induction a with
  | nil => rfl
  | cons x xs ih => simp [bytesToBits, ih]

theorem bytesToBits_length (a : List Nat) : (bytesToBits a).length = 8 * a.length := by
  induction a with
  | nil => rfl
  | cons x xs ih => simp [bytesToBits, ih, natToBits_length]; ring

theorem bitsToBytes_append :
    ∀ a b : List Bool, a.length % 8 = 0 →
      bitsToBytes (a ++ b) = bitsToBytes a ++ bitsToBytes b
  | [], b, _ => by simp [bitsToBytes]
  | [_], _, h | [_, _], _, h | [_, _, _], _, h | [_, _, _, _], _, h
  | [_, _, _, _, _], _, h | [_, _, _, _, _, _], _, h | [_, _, _, _, _, _, _], _, h => by
      simp [List.length] at h
  | a0 :: a1 :: a2 :: a3 :: a4 :: a5 :: a6 :: a7 :: rest, b, h => by
      have hr : rest.length % 8 = 0 := by
        simp only [List.length_cons] at h
        omega
      simp only [List.cons_append, List.append_eq, bitsToBytes]
      rw [bitsToBytes_append rest b hr]

theorem bitsToBytes_natToBits8 (v : Nat) (t : List Bool) :
    bitsToBytes (natToBits 8 v ++ t) = v % 256 :: bitsToBytes t := by
  show bitsToBytes
      ((v % 2 = 1) :: (v / 2 % 2 = 1) :: (v / 2 / 2 % 2 = 1) :: (v / 2 / 2 / 2 % 2 = 1) ::
        (v / 2 / 2 / 2 / 2 % 2 = 1) :: (v / 2 / 2 / 2 / 2 / 2 % 2 = 1) ::
        (v / 2 / 2 / 2 / 2 / 2 / 2 % 2 = 1) :: (v / 2 / 2 / 2 / 2 / 2 / 2 / 2 % 2 = 1) :: t) =
      v % 256 :: bitsToBytes t
  simp only [bitsToBytes]
  congr 1
  have := bitsToNat_natToBits 8 v
  simpa [natToBits, bitsToNat] using this

theorem bitsToBytes_bytesToBits (bs : List Nat) (h : ∀ x ∈ bs, x < 256) :
    bitsToBytes (bytesToBits bs) = bs := by
  induction bs with
  | nil => rfl
  | cons x xs ih =>
    have hx : x < 256 := h x (by simp)
    simp only [bytesToBits, bitsToBytes_natToBits8, Nat.mod_eq_of_lt hx]
    rw [ih fun y hy => h y (by simp [hy])]

theorem vlqBytesAux_lt (fuel v : Nat) : ∀ x ∈ vlqBytesAux fuel v, x < 256 := by
  induction fuel generalizing v with
  | zero => intro x hx; simp [vlqBytesAux] at hx; omega
  | succ fuel ih =>
    intro x hx
    simp only [vlqBytesAux] at hx
    split at hx
    · simp at hx; omega
    · rcases List.mem_cons.mp hx with h | h
      · omega
      · exact ih _ x h

theorem vlqBytes_lt (v : Nat) : ∀ x ∈ vlqBytes v, x < 256 := vlqBytesAux_lt 10 v

theorem zigzagVlqBytes_lt (v : Int) : ∀ x ∈ zigzagVlqBytes v, x < 256 := vlqBytes_lt _

namespace BitWriter

theorem padToByte_of_aligned (w : BitWriter) (h : w.bits.length % 8 = 0) :
    w.padToByte = w := by
  simp [padToByte, h]

theorem putVlqInt_of_aligned (w : BitWriter) (v : Nat) (h : w.bits.length % 8 = 0) :
    (w.putVlqInt v).bits = w.bits ++ bytesToBits (vlqBytes v) := by
  simp [putVlqInt, padToByte_of_aligned w h]

theorem putZigzagVlqInt_of_aligned (w : BitWriter) (v : Int) (h : w.bits.length % 8 = 0) :
    (w.putZigzagVlqInt v).bits = w.bits ++ bytesToBits (zigzagVlqBytes v) := by
  simp [putZigzagVlqInt, padToByte_of_aligned w h]

theorem append_bytes_aligned (a : List Bool) (bs : List Nat) (h : a.length % 8 = 0) :
    (a ++ bytesToBits bs).length % 8 = 0 := by
  simp [List.length_append, bytesToBits_length, h, Nat.add_mul_mod_self_left]

end BitWriter

/-! ## Structural lemmas on `DeltaBitPackEncoder` -/

namespace DeltaBitPackEncoder

/-- `flush_block_values` only touches the bit writer, the delta buffer
cursor and nothing else. -/
theorem flushBlockValues_fields (conv : DeltaConv) (s : DeltaBitPackEncoder) :
    (flushBlockValues conv s).pageHeaderWriter = s.pageHeaderWriter ∧
    (flushBlockValues conv s).totalValues = s.totalValues ∧
    (flushBlockValues conv s).firstValue = s.firstValue ∧
    (flushBlockValues conv s).currentValue = s.currentValue ∧
    (flushBlockValues conv s).blockSize = s.blockSize ∧
    (flushBlockValues conv s).miniBlockSize = s.miniBlockSize ∧
    (flushBlockValues conv s).numMiniBlocks = s.numMiniBlocks ∧
    (flushBlockValues conv s).deltas = s.deltas := by
  unfold flushBlockValues
  split
  · exact ⟨rfl, rfl, rfl, rfl, rfl, rfl, rfl, rfl⟩
  · exact ⟨rfl, rfl, rfl, rfl, rfl, rfl, rfl, rfl⟩

/-- The value-writing loop of `put` does not touch the page-header
writer, the total-value counter, the first value, or the block
geometry. -/
theorem putLoop_fields (conv : DeltaConv) (s : DeltaBitPackEncoder) (vs : List Int) :
    (putLoop conv s vs).pageHeaderWriter = s.pageHeaderWriter ∧
    (putLoop conv s vs).totalValues = s.totalValues ∧
    (putLoop conv s vs).firstValue = s.firstValue ∧
    (putLoop conv s vs).blockSize = s.blockSize ∧
    (putLoop conv s vs).miniBlockSize = s.miniBlockSize ∧
    (putLoop conv s vs).numMiniBlocks = s.numMiniBlocks := by
  induction vs generalizing s with
  | nil => exact ⟨rfl, rfl, rfl, rfl, rfl, rfl⟩
  | cons v rest ih =>
    simp only [putLoop]
    split
    · next heq =>
      obtain ⟨h1, h2, h3, h4, h5, h6⟩ := ih (flushBlockValues conv _)
      obtain ⟨g1, g2, g3, _, g5, g6, g7, _⟩ := flushBlockValues_fields conv
        { s with
          deltas := s.deltas.set s.valuesInBlock (conv.subtract v s.currentValue)
          currentValue := v
          valuesInBlock := s.valuesInBlock + 1 }
      exact ⟨h1.trans g1, h2.trans g2, h3.trans g3, h4.trans g5, h5.trans g6, h6.trans g7⟩
    · exact ih _

/-- `put` adds `values.len()` to `total_values`, records the first value
of the very first batch, and leaves the page-header writer and the
block geometry alone. -/
theorem put_fields (conv : DeltaConv) (s : DeltaBitPackEncoder) (values : List Int) :
    (put conv s values).pageHeaderWriter = s.pageHeaderWriter ∧
    (put conv s values).totalValues = s.totalValues + values.length ∧
    (put conv s values).firstValue =
      (if s.totalValues = 0 then values.headD s.firstValue else s.firstValue) ∧
    (put conv s values).blockSize = s.blockSize ∧
    (put conv s values).miniBlockSize = s.miniBlockSize ∧
    (put conv s values).numMiniBlocks = s.numMiniBlocks := by
  match values with
  | [] => simp [put]
  | first :: rest =>
    simp only [put]
    split
    all_goals
      exact ⟨(putLoop_fields conv _ _).1, (putLoop_fields conv _ _).2.1,
             (putLoop_fields conv _ _).2.2.1,
             (putLoop_fields conv _ _).2.2.2.1, (putLoop_fields conv _ _).2.2.2.2.1,
             (putLoop_fields conv _ _).2.2.2.2.2⟩

end DeltaBitPackEncoder

/-! ## Claim C3 -/

/-- **C3.** For the INT32 delta encoder, `subtract(a, b)` is the i64
sign-extension of the wrapping two's-complement i32 subtraction of
`(i32)a` and `(i32)b` (first conjunct: it is that wrapping subtraction,
second conjunct: the result already lies in i32 range, so embedding it
in i64 is sign-extension), and `subtract_u64(a, b)` is the u64
zero-extension of the u32 reinterpretation of that same wrapping
subtraction; consequently `subtract_u64` always returns a value below
`2^32`. -/
theorem int32Conv_subtract_spec (a b : Int) :
    int32Conv.subtract a b = i32WrapSub (asI32 a) (asI32 b) ∧
    -(2 ^ 31) ≤ int32Conv.subtract a b ∧ int32Conv.subtract a b < 2 ^ 31 ∧
    int32Conv.subtractU64 a b = ((int32Conv.subtract a b) % 2 ^ 32).toNat ∧
    int32Conv.subtractU64 a b < 2 ^ 32 := by
  refine ⟨rfl, ?_, ?_, ?_, ?_⟩ <;>
    simp only [int32Conv, i32WrapSub, asI32] <;> omega

/-! ## Claim C2 -/

/-- **C2.** For every batch put into a `DeltaBitPackEncoder` (the
conversion argument covers both INT32 and INT64), `flush_buffer`
returns the page-header bytes followed by the bit-writer bytes, the
header encoding blockSize (128), numMiniBlocks (4), totalValueCount
(the first value plus all subsequent values, i.e. `values.length`) and
firstValue, and afterwards `total_values`, `first_value`,
`current_value` and `values_in_block` are all reset to zero; in
particular `put([42])` then `flush_buffer` yields exactly the header
`blockSize=128, numMiniBlocks=4, totalValueCount=1, firstValue=42`
(bytes `80 01 04 01 54`) with no block bytes following. -/
theorem deltaBitPack_flushBuffer_spec (conv : DeltaConv) (values : List Int) :
    (DeltaBitPackEncoder.flushBuffer conv
        (DeltaBitPackEncoder.put conv DeltaBitPackEncoder.new values)).1 =
      vlqBytes 128 ++ vlqBytes 4 ++ vlqBytes values.length ++
        zigzagVlqBytes (values.headD 0) ++
        (DeltaBitPackEncoder.flushBlockValues conv
          (DeltaBitPackEncoder.put conv DeltaBitPackEncoder.new values)).bitWriter.flushBuffer ∧
    (DeltaBitPackEncoder.flushBuffer conv
        (DeltaBitPackEncoder.put conv DeltaBitPackEncoder.new values)).2.totalValues = 0 ∧
    (DeltaBitPackEncoder.flushBuffer conv
        (DeltaBitPackEncoder.put conv DeltaBitPackEncoder.new values)).2.firstValue = 0 ∧
    (DeltaBitPackEncoder.flushBuffer conv
        (DeltaBitPackEncoder.put conv DeltaBitPackEncoder.new values)).2.currentValue = 0 ∧
    (DeltaBitPackEncoder.flushBuffer conv
        (DeltaBitPackEncoder.put conv DeltaBitPackEncoder.new values)).2.valuesInBlock = 0 ∧
    (DeltaBitPackEncoder.flushBuffer int32Conv
        (DeltaBitPackEncoder.put int32Conv DeltaBitPackEncoder.new [42])).1 =
      [0x80, 0x01, 0x04, 0x01, 0x54] := by
  refine ⟨?_, rfl, rfl, rfl, rfl, by decide⟩
  set s := DeltaBitPackEncoder.put conv DeltaBitPackEncoder.new values with hs
  obtain ⟨p1, p2, p3, p4, _, p6⟩ := DeltaBitPackEncoder.put_fields conv
    DeltaBitPackEncoder.new values
  obtain ⟨f1, f2, f3, _, f5, _, f7, _⟩ :=
    DeltaBitPackEncoder.flushBlockValues_fields conv s
  set t := DeltaBitPackEncoder.flushBlockValues conv s with ht
  have hph : t.pageHeaderWriter = BitWriter.new := by rw [f1, p1]; rfl
  have htv : t.totalValues = values.length := by rw [f2, p2]; simp [DeltaBitPackEncoder.new]
  have hfv : t.firstValue = values.headD 0 := by rw [f3, p3]; rfl
  have hbs : t.blockSize = 128 := by rw [f5, p4]; rfl
  have hnmb : t.numMiniBlocks = 4 := by rw [f7, p6]; rfl
  have a0 : t.pageHeaderWriter.bits.length % 8 = 0 := by rw [hph]; rfl
  have e1 := BitWriter.putVlqInt_of_aligned t.pageHeaderWriter 128 a0
  have a1 : (t.pageHeaderWriter.putVlqInt 128).bits.length % 8 = 0 := by
    rw [e1]; exact BitWriter.append_bytes_aligned _ _ a0
  have e2 := BitWriter.putVlqInt_of_aligned (t.pageHeaderWriter.putVlqInt 128) 4 a1
  have a2 : ((t.pageHeaderWriter.putVlqInt 128).putVlqInt 4).bits.length % 8 = 0 := by
    rw [e2]; exact BitWriter.append_bytes_aligned _ _ a1
  have e3 := BitWriter.putVlqInt_of_aligned ((t.pageHeaderWriter.putVlqInt 128).putVlqInt 4)
    values.length a2
  have a3 : (((t.pageHeaderWriter.putVlqInt 128).putVlqInt 4).putVlqInt
      values.length).bits.length % 8 = 0 := by
    rw [e3]; exact BitWriter.append_bytes_aligned _ _ a2
  have e4 := BitWriter.putZigzagVlqInt_of_aligned
    (((t.pageHeaderWriter.putVlqInt 128).putVlqInt 4).putVlqInt values.length)
    (values.headD 0) a3
  have hbits : ((((t.pageHeaderWriter.putVlqInt t.blockSize).putVlqInt
      t.numMiniBlocks).putVlqInt t.totalValues).putZigzagVlqInt t.firstValue).bits =
      bytesToBits (vlqBytes 128 ++ vlqBytes 4 ++ vlqBytes values.length ++
        zigzagVlqBytes (values.headD 0)) := by
    rw [hbs, hnmb, htv, hfv, e4, e3, e2, e1, hph]
    simp [bytesToBits_append, BitWriter.new]
  show (DeltaBitPackEncoder.writePageHeader t).pageHeaderWriter.flushBuffer ++
      (DeltaBitPackEncoder.writePageHeader t).bitWriter.flushBuffer = _
  have hwb : (DeltaBitPackEncoder.writePageHeader t).bitWriter = t.bitWriter := rfl
  rw [hwb]
  congr 1
  show bitsToBytes ((((t.pageHeaderWriter.putVlqInt t.blockSize).putVlqInt
      t.numMiniBlocks).putVlqInt t.totalValues).putZigzagVlqInt t.firstValue).bits = _
  rw [hbits, bitsToBytes_bytesToBits]
  intro x hx
  simp only [List.mem_append] at hx
  rcases hx with ((hx | hx) | hx) | hx
  · exact vlqBytes_lt _ x hx
  · exact vlqBytes_lt _ x hx
  · exact vlqBytes_lt _ x hx
  · exact zigzagVlqBytes_lt _ x hx

/-! ## Claim C9 -/

theorem miniBlockLoop_remaining_eq_zero (conv : DeltaConv) (deltas : List Int)
    (mbs : Nat) (minDelta : Int) :
    ∀ iters i remaining : Nat, remaining ≤ iters * mbs →
      (DeltaBitPackEncoder.miniBlockLoop conv deltas mbs minDelta iters i remaining).2.2 = 0 := by
  intro iters
  induction iters with
  | zero =>
    intro i remaining h
    simp only [Nat.zero_mul, Nat.le_zero] at h
    subst h
    rfl
  | succ k ih =>
    intro i remaining h
    have h' : remaining ≤ k * mbs + mbs := by
      calc remaining ≤ (k + 1) * mbs := h
        _ = k * mbs + mbs := by ring
    simp only [DeltaBitPackEncoder.miniBlockLoop]
    split
    · next hn =>
      show remaining = 0
      rcases Nat.eq_zero_or_pos mbs with hm | hm
      · subst hm
        simpa using h'
      · clear h h'
        omega
    · next hn =>
      have hle : remaining - min mbs remaining ≤ k * mbs := by
        clear h
        generalize k * mbs = K at h' ⊢
        omega
      exact ih (i + 1) (remaining - min mbs remaining) hle

/-- **C9.** For every `DeltaBitPackEncoder` state with
`values_in_block ≤ block_size` and
`block_size = num_mini_blocks * mini_block_size` (as established by the
constructor defaults `128 = 4 * 32`), after the mini-block loop in
`flush_block_values` the counter `values_in_block` equals zero, so the
trailing assertion can never fail. -/
theorem deltaBitPack_flushBlock_assert_holds (conv : DeltaConv) (s : DeltaBitPackEncoder)
    (h1 : s.valuesInBlock ≤ s.blockSize)
    (h2 : s.blockSize = s.numMiniBlocks * s.miniBlockSize) :
    (DeltaBitPackEncoder.flushBlockValues conv s).valuesInBlock = 0 := by
  unfold DeltaBitPackEncoder.flushBlockValues
  split
  · next h => exact h
  · next h =>
    exact miniBlockLoop_remaining_eq_zero conv s.deltas s.miniBlockSize _
      s.numMiniBlocks 0 s.valuesInBlock (h2 ▸ h1)

/-- A concrete partially filled block used to witness C9. -/
def flushBlockTestState : DeltaBitPackEncoder where
  pageHeaderWriter := BitWriter.new
  bitWriter := BitWriter.new
  totalValues := 4
  firstValue := 5
  currentValue := 8
  blockSize := 4
  miniBlockSize := 2
  numMiniBlocks := 2
  valuesInBlock := 3
  deltas := [1, 2, 3, 0]

/-- Witness for C9 at a concrete state: the hypotheses hold and the
counter is zero after the flush. -/
theorem deltaBitPack_flushBlock_assert_holds_witness :
    flushBlockTestState.valuesInBlock ≤ flushBlockTestState.blockSize ∧
    flushBlockTestState.blockSize =
      flushBlockTestState.numMiniBlocks * flushBlockTestState.miniBlockSize ∧
    (DeltaBitPackEncoder.flushBlockValues int32Conv flushBlockTestState).valuesInBlock = 0 :=
  ⟨by decide, by decide,
    deltaBitPack_flushBlock_assert_holds int32Conv flushBlockTestState
      (by decide) (by decide)⟩

/-! ## Claim C5 -/

/-- `DictEncoder::bit_width` (encoding.rs lines 321-327) as a function of
`num_entries`: `0` for an empty dictionary, `1` for a single entry,
otherwise `log2(num_entries as u64)`. -/
def dictBitWidth (numEntries : Nat) : Nat :=
  if numEntries = 0 then 0 else if numEntries = 1 then 1 else log2u64 numEntries

theorem bitCountAux_le_iff :
    ∀ fuel m k : Nat, m < 2 ^ fuel → (bitCountAux fuel m ≤ k ↔ m < 2 ^ k) := by
  intro fuel
  induction fuel with
  | zero =>
    intro m k h
    have hm : m = 0 := by simpa using h
    subst hm
    simp [bitCountAux, Nat.zero_le, pow_pos]
  | succ f ih =>
    intro m k h
    by_cases hm : m = 0
    · subst hm
      have h0 : bitCountAux (f + 1) 0 = 0 := by simp [bitCountAux]
      rw [h0]
      simp [Nat.zero_le, pow_pos]
    · have hstep : bitCountAux (f + 1) m = bitCountAux f (m / 2) + 1 := by
        simp [bitCountAux, hm]
      rw [hstep]
      have hm2 : m / 2 < 2 ^ f := by
        rw [pow_succ] at h
        omega
      cases k with
      | zero =>
        simp only [Nat.le_zero, Nat.add_eq_zero, pow_zero]
        omega
      | succ k' =>
        rw [Nat.add_le_add_iff_right, ih (m / 2) k' hm2, pow_succ]
        omega

/-- **C5.** `bit_width()` returns 0 when the dictionary has 0 entries, 1
when it has 1 entry, and `⌈log₂ n⌉` when it has `n ≥ 2` entries (the
entry count is a `usize`, hence below `2^64`). -/
theorem dict_bitWidth_spec (n : Nat) (h2 : 2 ≤ n) (h64 : n < 2 ^ 64) :
    dictBitWidth 0 = 0 ∧ dictBitWidth 1 = 1 ∧ dictBitWidth n = Nat.clog 2 n := by
  refine ⟨rfl, rfl, ?_⟩
  have hb : dictBitWidth n = bitCountAux 64 (n - 1) := by
    have h0 : ¬ n = 0 := by omega
    have h1 : ¬ n = 1 := by omega
    have hle : ¬ n ≤ 1 := by omega
    simp [dictBitWidth, log2u64, h0, h1, hle]
  rw [hb]
  have hlt : n - 1 < 2 ^ 64 := by omega
  apply Nat.le_antisymm
  · apply (bitCountAux_le_iff 64 (n - 1) _ hlt).mpr
    have := Nat.le_pow_clog (by norm_num : 1 < 2) n
    omega
  · rw [← Nat.le_pow_iff_clog_le (by norm_num : 1 < 2)]
    have := (bitCountAux_le_iff 64 (n - 1) (bitCountAux 64 (n - 1)) hlt).mp le_rfl
    omega

/-- Witness for C5 at `n = 5`. -/
theorem dict_bitWidth_spec_witness :
    2 ≤ 5 ∧ 5 < 2 ^ 64 ∧
      (dictBitWidth 0 = 0 ∧ dictBitWidth 1 = 1 ∧ dictBitWidth 5 = Nat.clog 2 5) :=
  ⟨by decide, by norm_num, dict_bitWidth_spec 5 (by decide) (by norm_num)⟩

/-! ## Claim C6

The `Result`-returning signature of `Encoder::put` is modelled as an
`EncodeResult`, keeping genuine `Err(general_err!(..))` returns apart
from `panic!` aborts: a returned error is recoverable, a panic is
fatal. -/

inductive EncodeResult (α : Type) where
  | ok : α → EncodeResult α
  | general : String → EncodeResult α
  | panicked : String → EncodeResult α
deriving Repr, DecidableEq

/-- Whether the result is a recoverable `General` error returned to the
caller. -/
def EncodeResult.isGeneral {α : Type} : EncodeResult α → Bool
  | .general _ => true
  | _ => false

/-- `impl<T> Encoder<T> for RleValueEncoder<T>`, the `default fn put`
selected for every non-boolean physical type (encoding.rs lines
404-407): `panic!("RleValueEncoder only supports BoolType")`. -/
def rleValueEncoderDefaultPut {α : Type} (_values : List α) : EncodeResult Unit :=
  .panicked "RleValueEncoder only supports BoolType"

/-- `impl<T> Encoder<T> for DeltaLengthByteArrayEncoder<T>`, the
`default fn put` selected for every non-byte-array physical type
(encoding.rs lines 773-775). -/
def deltaLengthByteArrayDefaultPut {α : Type} (_values : List α) : EncodeResult Unit :=
  .panicked "DeltaLengthByteArrayEncoder only supports ByteArrayType"

/-- `impl<T> Encoder<T> for DeltaByteArrayEncoder<T>`, the
`default fn put` selected for every non-byte-array physical type
(encoding.rs lines 834-836). -/
def deltaByteArrayDefaultPut {α : Type} (_values : List α) : EncodeResult Unit :=
  .panicked "DeltaByteArrayEncoder only supports ByteArrayType"

/-- **C6 counterexample.** At the concrete input `[0]` (an INT32 batch
handed to an `RleValueEncoder`, and likewise to a
`DeltaLengthByteArrayEncoder`), `put` does not return a recoverable
General error: it panics. -/
theorem mispairedPut_counterexample :
    (rleValueEncoderDefaultPut [(0 : Int)]).isGeneral = false ∧
    rleValueEncoderDefaultPut [(0 : Int)] =
      .panicked "RleValueEncoder only supports BoolType" ∧
    (deltaLengthByteArrayDefaultPut [(0 : Int)]).isGeneral = false ∧
    deltaLengthByteArrayDefaultPut [(0 : Int)] =
      .panicked "DeltaLengthByteArrayEncoder only supports ByteArrayType" :=
  ⟨rfl, rfl, rfl, rfl⟩

/-- **C6 (amended).** For every encoder instance paired with a physical
type it does not support (`RleValueEncoder` on a non-boolean type,
`DeltaLengthByteArrayEncoder` / `DeltaByteArrayEncoder` on a
non-byte-array type), calling `put` fails fatally with a panic; it
never returns a recoverable General error. -/
theorem mispairedPut_panics {α : Type} (values : List α) :
    rleValueEncoderDefaultPut values =
      .panicked "RleValueEncoder only supports BoolType" ∧
    (rleValueEncoderDefaultPut values).isGeneral = false ∧
    deltaLengthByteArrayDefaultPut values =
      .panicked "DeltaLengthByteArrayEncoder only supports ByteArrayType" ∧
    (deltaLengthByteArrayDefaultPut values).isGeneral = false ∧
    deltaByteArrayDefaultPut values =
      .panicked "DeltaByteArrayEncoder only supports ByteArrayType" ∧
    (deltaByteArrayDefaultPut values).isGeneral = false :=
  ⟨rfl, rfl, rfl, rfl, rfl, rfl⟩

/-! ## RLE/bit-packed hybrid writer (modelled from spec §4.2 and §6.2;
`encodings/rle.rs` is not among the sources) -/

/-- Length of the maximal leading run of `v` and the remaining list. -/
def splitRun (v : Nat) : List Nat → Nat × List Nat
  | [] => (0, [])
  | x :: xs => if x = v then ((splitRun v xs).1 + 1, (splitRun v xs).2) else (0, x :: xs)

theorem splitRun_length (v : Nat) : ∀ l : List Nat, (splitRun v l).2.length ≤ l.length := by
  intro l
  induction l with
  | nil => simp [splitRun]
  | cons x xs ih =>
    simp only [splitRun]
    split
    · exact Nat.le_succ_of_le ih
    · exact Nat.le_refl _

/-- The maximal runs of a value stream, as `(value, run length)` pairs. -/
def rleRuns : List Nat → List (Nat × Nat)
  | [] => []
  | v :: rest => (v, (splitRun v rest).1 + 1) :: rleRuns (splitRun v rest).2
termination_by l => l.length
decreasing_by
  simp only [List.length_cons]
  exact Nat.lt_succ_of_le (splitRun_length _ _)

/-- Values packed back to back at a fixed bit width, LSB-first. -/
def packBits (bw : Nat) : List Nat → List Bool
  | [] => []
  | v :: vs => natToBits bw v ++ packBits bw vs

/-- `⌈n / 8⌉`. -/
def ceilDiv8 (n : Nat) : Nat := (n + 7) / 8

/-- Modelled from the spec: a bit-packed run (§6.2): ULEB header
`2 * groups + 1` where `groups` counts groups of 8, then `groups * 8`
values (the group is padded with zero values) packed at the bit
width. -/
def flushPackedGroup (bw : Nat) (pending : List Nat) : List Nat :=
  if pending.isEmpty then []
  else
    vlqBytes (2 * ceilDiv8 pending.length + 1) ++
      bitsToBytes (packBits bw
        (pending ++ List.replicate (ceilDiv8 pending.length * 8 - pending.length) 0))

/-- Modelled from the spec: a repeated run (§6.2): ULEB header
`count << 1`, then the run value in `⌈bitWidth / 8⌉` little-endian
bytes. -/
def repeatedRun (bw v count : Nat) : List Nat :=
  vlqBytes (2 * count) ++ leBytes (ceilDiv8 bw) v

/-- Modelled from the spec: the run emission loop of §4.2.  Runs shorter
than the repeat threshold (8) accumulate into a pending bit-packed
group; a run of length ≥ 8 first completes the pending group to a
multiple of 8, flushes it, then goes out as a repeated run (a remainder
shorter than 8 starts the next pending group); at the end of the stream
the residual pending group is flushed zero-padded. -/
def rleEmitRuns (bw : Nat) : List (Nat × Nat) → List Nat → List Nat
  | [], pending => flushPackedGroup bw pending
  | (v, cnt) :: rest, pending =>
    if 8 ≤ cnt then
      let t := (8 - pending.length % 8) % 8
      if 8 ≤ cnt - t then
        flushPackedGroup bw (pending ++ List.replicate t v) ++
          repeatedRun bw v (cnt - t) ++ rleEmitRuns bw rest []
      else
        flushPackedGroup bw (pending ++ List.replicate t v) ++
          rleEmitRuns bw rest (List.replicate (cnt - t) v)
    else rleEmitRuns bw rest (pending ++ List.replicate cnt v)

/-- Modelled from the spec: the RLE/bit-packed hybrid encoding of a
value stream at a fixed bit width (§4.2, §6.2; `encodings/rle.rs` is
not among the sources). -/
def rleHybridEncode (bw : Nat) (values : List Nat) : List Nat :=
  rleEmitRuns bw (rleRuns values) []

/-! ## RleValueEncoder (encoding.rs lines 386-456) -/

/-- `RleValueEncoder` (encoding.rs lines 386-401): the inner
`RleEncoder` is created lazily on the first `put`; it is modelled by
its buffered boolean stream (bit width 1).  The inner buffer is
unbounded in the model (`rle.rs` is not among the sources; its `put`
only fails when its fixed-capacity buffer overflows). -/
structure RleValueEncoder where
  encoder : Option (List Bool)
deriving Repr, DecidableEq

namespace RleValueEncoder

def new : RleValueEncoder := ⟨none⟩

/-- `Encoder<BoolType>::put` (encoding.rs lines 421-432): initialize the
RLE encoder if absent, then feed every boolean. -/
def put (s : RleValueEncoder) (values : List Bool) : RleValueEncoder :=
  ⟨some (s.encoder.getD [] ++ values)⟩

/-- `Encoder<BoolType>::flush_buffer` (encoding.rs lines 435-455):
assert the encoder was initialized, encode the buffered values, and
return the 4-byte little-endian byte length of the RLE payload followed
by the payload; the RLE encoder is cleared for the next batch. -/
def flushBuffer (s : RleValueEncoder) : EncodeResult (List Nat × RleValueEncoder) :=
  match s.encoder with
  | none => .panicked "RLE value encoder is not initialized"
  | some vals =>
    let buf := rleHybridEncode 1 (vals.map fun b => if b then 1 else 0)
    .ok (leBytes 4 buf.length ++ buf, ⟨some []⟩)

end RleValueEncoder

/-! ## Claim C10 -/

/-- **C10.** For every sequence of boolean values put into an
`RleValueEncoder<BoolType>`, `flush_buffer` returns a 4-byte
little-endian integer holding the byte length of the RLE/bit-packed
hybrid payload, followed by that payload (and the cleared encoder). -/
theorem rleValueEncoder_flush_spec (values : List Bool) :
    RleValueEncoder.flushBuffer (RleValueEncoder.put RleValueEncoder.new values) =
      .ok (leBytes 4
            (rleHybridEncode 1 (values.map fun b => if b then 1 else 0)).length ++
          rleHybridEncode 1 (values.map fun b => if b then 1 else 0),
        ⟨some []⟩) := rfl

/-! ## DELTA_LENGTH_BYTE_ARRAY encoder (encoding.rs lines 753-807) -/

/-- Byte-array values are byte lists. -/
abbrev ByteArr := List Nat

/-- `DeltaLengthByteArrayEncoder` (encoding.rs lines 753-759): an inner
DELTA_BINARY_PACKED INT32 encoder for the lengths plus the buffered
byte arrays. -/
structure DeltaLengthByteArrayEncoder where
  lenEncoder : DeltaBitPackEncoder
  data : List ByteArr
deriving Repr, DecidableEq

namespace DeltaLengthByteArrayEncoder

def new : DeltaLengthByteArrayEncoder := ⟨DeltaBitPackEncoder.new, []⟩

/-- `Encoder<ByteArrayType>::put` (encoding.rs lines 787-795): put every
length (as `i32`) into the length encoder and append the (cloned) byte
arrays to the data list. -/
def put (s : DeltaLengthByteArrayEncoder) (values : List ByteArr) :
    DeltaLengthByteArrayEncoder where
  lenEncoder := DeltaBitPackEncoder.put int32Conv s.lenEncoder
    (values.map fun v => (v.length : Int))
  data := s.data ++ values

/-- Concatenation of the raw byte-array bytes (the
`extend_from_slice(byte_array.data())` loop). -/
def concatData : List ByteArr → List Nat
  | [] => []
  | v :: vs => v ++ concatData vs

/-- `Encoder<ByteArrayType>::flush_buffer` (encoding.rs lines 797-806):
the DELTA_BINARY_PACKED length frame followed by the concatenated raw
bytes; the data list is cleared. -/
def flushBuffer (s : DeltaLengthByteArrayEncoder) :
    List Nat × DeltaLengthByteArrayEncoder :=
  ((DeltaBitPackEncoder.flushBuffer int32Conv s.lenEncoder).1 ++ concatData s.data,
   { lenEncoder := (DeltaBitPackEncoder.flushBuffer int32Conv s.lenEncoder).2, data := [] })

end DeltaLengthByteArrayEncoder

/-! ## DELTA_BYTE_ARRAY encoder (encoding.rs lines 814-884) -/

/-- `DeltaByteArrayEncoder` (encoding.rs lines 814-819). -/
structure DeltaByteArrayEncoder where
  prefixLenEncoder : DeltaBitPackEncoder
  suffixWriter : DeltaLengthByteArrayEncoder
  previous : List Nat
deriving Repr, DecidableEq

namespace DeltaByteArrayEncoder

def new : DeltaByteArrayEncoder :=
  ⟨DeltaBitPackEncoder.new, DeltaLengthByteArrayEncoder.new, []⟩

/-- The `while match_len < prefix_len && previous[match_len] ==
current[match_len]` scan of `put` (encoding.rs lines 855-859): the
number of leading positions where the two byte strings agree. -/
def matchLen : List Nat → List Nat → Nat
  | p :: ps, c :: cs => if p = c then matchLen ps cs + 1 else 0
  | _, _ => 0

/-- The per-value loop of `put` (encoding.rs lines 852-865): the
prefix-length stream, the suffix stream
(`byte_array.slice(match_len, len - match_len)`), and the final
`previous` buffer. -/
def deltaSplit : List Nat → List ByteArr → List Int × List ByteArr × List Nat
  | prev, [] => ([], [], prev)
  | prev, c :: rest =>
    ((matchLen prev c : Int) :: (deltaSplit c rest).1,
     c.drop (matchLen prev c) :: (deltaSplit c rest).2.1,
     (deltaSplit c rest).2.2)

/-- `Encoder<ByteArrayType>::put` (encoding.rs lines 848-869). -/
def put (s : DeltaByteArrayEncoder) (values : List ByteArr) : DeltaByteArrayEncoder where
  prefixLenEncoder := DeltaBitPackEncoder.put int32Conv s.prefixLenEncoder
    (deltaSplit s.previous values).1
  suffixWriter := DeltaLengthByteArrayEncoder.put s.suffixWriter
    (deltaSplit s.previous values).2.1
  previous := (deltaSplit s.previous values).2.2

/-- `Encoder<ByteArrayType>::flush_buffer` (encoding.rs lines 871-884):
the prefix-length DELTA_BINARY_PACKED frame followed by the
DELTA_LENGTH_BYTE_ARRAY frame of the suffixes; `previous` is left
untouched. -/
def flushBuffer (s : DeltaByteArrayEncoder) : List Nat × DeltaByteArrayEncoder :=
  ((DeltaBitPackEncoder.flushBuffer int32Conv s.prefixLenEncoder).1 ++
      (DeltaLengthByteArrayEncoder.flushBuffer s.suffixWriter).1,
   { prefixLenEncoder := (DeltaBitPackEncoder.flushBuffer int32Conv s.prefixLenEncoder).2
     suffixWriter := (DeltaLengthByteArrayEncoder.flushBuffer s.suffixWriter).2
     previous := s.previous })

end DeltaByteArrayEncoder

/-! ## Claims C7 and C8 -/

/-- The spec-side description of the recorded prefix length: the length
of the longest common prefix of the two byte strings. -/
def lcpLen (p c : List Nat) : Nat :=
  ((p.zip c).takeWhile fun x => x.1 = x.2).length

theorem matchLen_eq_lcpLen (p : List Nat) : ∀ c, DeltaByteArrayEncoder.matchLen p c = lcpLen p c := by
  induction p with
  | nil => intro c; cases c <;> rfl
  | cons x ps ih =>
    intro c
    cases c with
    | nil => rfl
    | cons y cs =>
      simp only [DeltaByteArrayEncoder.matchLen, lcpLen, List.zip_cons_cons,
        List.takeWhile_cons]
      by_cases h : x = y
      · simp [h, ih cs, lcpLen, List.zip]
      · simp [h]

theorem deltaSplit_spec (values : List ByteArr) :
    ∀ prev,
      (DeltaByteArrayEncoder.deltaSplit prev values).1 =
        List.zipWith (fun p c => (lcpLen p c : Int)) (prev :: values) values ∧
      (DeltaByteArrayEncoder.deltaSplit prev values).2.1 =
        List.zipWith (fun p c => c.drop (lcpLen p c)) (prev :: values) values ∧
      (DeltaByteArrayEncoder.deltaSplit prev values).2.2 = values.getLastD prev := by
  induction values with
  | nil => intro prev; exact ⟨rfl, rfl, rfl⟩
  | cons c rest ih =>
    intro prev
    obtain ⟨h1, h2, h3⟩ := ih c
    refine ⟨?_, ?_, ?_⟩
    · simp only [DeltaByteArrayEncoder.deltaSplit, List.zipWith, h1,
        matchLen_eq_lcpLen]
    · simp only [DeltaByteArrayEncoder.deltaSplit, List.zipWith, h2,
        matchLen_eq_lcpLen]
    · simp only [DeltaByteArrayEncoder.deltaSplit, h3, List.getLastD_cons]

/-- **C7.** From an empty previous buffer, each recorded prefix length
is the length of the longest common prefix with the immediately
preceding value and each recorded suffix is the remainder of the value;
`put` feeds exactly these streams to the prefix-length encoder and the
suffix writer; `put(["axis", "axle", "bye"])` produces prefix-length
stream `[0, 2, 0]` and suffix stream `["axis", "le", "bye"]`; and
`flush_buffer` returns the prefix-length DELTA_BINARY_PACKED frame
followed by the DELTA_LENGTH_BYTE_ARRAY frame of the suffixes. -/
theorem deltaByteArray_put_spec :
    (∀ values : List ByteArr,
      (DeltaByteArrayEncoder.deltaSplit [] values).1 =
        List.zipWith (fun p c => (lcpLen p c : Int)) ([] :: values) values ∧
      (DeltaByteArrayEncoder.deltaSplit [] values).2.1 =
        List.zipWith (fun p c => c.drop (lcpLen p c)) ([] :: values) values ∧
      DeltaByteArrayEncoder.put DeltaByteArrayEncoder.new values =
        { prefixLenEncoder := DeltaBitPackEncoder.put int32Conv DeltaBitPackEncoder.new
            (DeltaByteArrayEncoder.deltaSplit [] values).1
          suffixWriter := DeltaLengthByteArrayEncoder.put DeltaLengthByteArrayEncoder.new
            (DeltaByteArrayEncoder.deltaSplit [] values).2.1
          previous := (DeltaByteArrayEncoder.deltaSplit [] values).2.2 }) ∧
    (DeltaByteArrayEncoder.deltaSplit []
        [[97, 120, 105, 115], [97, 120, 108, 101], [98, 121, 101]]).1 = [0, 2, 0] ∧
    (DeltaByteArrayEncoder.deltaSplit []
        [[97, 120, 105, 115], [97, 120, 108, 101], [98, 121, 101]]).2.1 =
      [[97, 120, 105, 115], [108, 101], [98, 121, 101]] ∧
    (∀ s : DeltaByteArrayEncoder,
      (DeltaByteArrayEncoder.flushBuffer s).1 =
        (DeltaBitPackEncoder.flushBuffer int32Conv s.prefixLenEncoder).1 ++
          (DeltaLengthByteArrayEncoder.flushBuffer s.suffixWriter).1) := by
  refine ⟨?_, by decide, by decide, fun s => rfl⟩
  intro values
  obtain ⟨h1, h2, _⟩ := deltaSplit_spec values []
  exact ⟨h1, h2, rfl⟩

/-- **C8.** `flush_buffer` leaves the `previous` buffer unchanged, `put`
records the last value of a batch into `previous`, and therefore the
first value of a batch encoded after a flush is prefix-compressed
against the last value of the preceding batch (its recorded prefix
length is the longest-common-prefix length against `previous`) rather
than against an empty previous value. -/
theorem deltaByteArray_previous_survives_flush (s : DeltaByteArrayEncoder)
    (v : ByteArr) (vs : List ByteArr) :
    (DeltaByteArrayEncoder.flushBuffer s).2.previous = s.previous ∧
    (DeltaByteArrayEncoder.put s (v :: vs)).previous = (v :: vs).getLastD s.previous ∧
    (DeltaByteArrayEncoder.deltaSplit
        (DeltaByteArrayEncoder.flushBuffer s).2.previous (v :: vs)).1.head? =
      some (lcpLen s.previous v : Int) := by
  refine ⟨rfl, (deltaSplit_spec (v :: vs) s.previous).2.2, ?_⟩
  show (DeltaByteArrayEncoder.deltaSplit s.previous (v :: vs)).1.head? = _
  rw [(deltaSplit_spec (v :: vs) s.previous).1]
  rfl

/-! ## DictEncoder (encoding.rs lines 189-377)

The value hash of `util/hash_util.rs` is not among the sources; it is
carried as a parameter `h : α → Nat` (spec §4.3.2: a 32-bit hash of the
value bytes, collisions resolved by comparing the dictionary value).
The source computes the start slot as `hash & mod_bitmask` with
`mod_bitmask = hash_table_size - 1`; for the power-of-two table size
maintained by the encoder this equals `hash % hash_table_size`, which is
how the modelled probe starts. -/

/-- `INITIAL_HASH_TABLE_SIZE` (encoding.rs line 189). -/
def initialHashTableSize : Nat := 1024

/-- The load-factor ceiling `(hash_table_size as f32 * MAX_HASH_LOAD) as
usize` of encoding.rs line 306, with `MAX_HASH_LOAD = 0.7f32 =
11744051 / 2^24`.  For a power-of-two table size (an invariant of the
encoder) the `f32` product is exactly representable, so the truncating
cast is Nat division. -/
def dictLoadThreshold (size : Nat) : Nat := size * 11744051 / 2 ^ 24

/-- `DictEncoder` (encoding.rs lines 203-230): the hash table size,
slot array (`HASH_SLOT_EMPTY = -1`), buffered indices and unique
values. -/
structure DictEncoder (α : Type) where
  hashTableSize : Nat
  hashSlots : List Int
  bufferedIndices : List Int
  uniques : List α

namespace DictEncoder

/-- `DictEncoder::new` (encoding.rs lines 234-247). -/
def new (α : Type) : DictEncoder α where
  hashTableSize := initialHashTableSize
  hashSlots := List.replicate initialHashTableSize (-1)
  bufferedIndices := []
  uniques := []

/-- `num_entries` (encoding.rs lines 250-252). -/
def numEntries {α : Type} (s : DictEncoder α) : Nat := s.uniques.length

/-- One slot of the table (`self.hash_slots[j]`); the sentinel is the
out-of-range default, never used on reachable states. -/
def slotAt (slots : List Int) (j : Nat) : Int := slots.getD j (-1)

/-- The exit condition of the probe loops (encoding.rs lines 293-299 and
342-348): the slot is empty or holds an index whose dictionary entry
equals the probed value. -/
def probeStop {α : Type} [DecidableEq α] (slots : List Int) (uniques : List α)
    (v : α) (j : Nat) : Prop :=
  slotAt slots j = -1 ∨ uniques.get? (slotAt slots j).toNat = some v

instance {α : Type} [DecidableEq α] (slots : List Int) (uniques : List α) (v : α) (j : Nat) :
    Decidable (probeStop slots uniques v j) := by
  unfold probeStop
  infer_instance

/-- The linear-probe loop `while index != HASH_SLOT_EMPTY &&
self.uniques[index as usize] != *value { j += 1; if j ==
self.hash_table_size { j = 0; } }` with explicit fuel.  The table
always keeps an empty slot on reachable states (load factor below 1),
so fuel `hash_table_size` is never exhausted there. -/
def probe {α : Type} [DecidableEq α] (slots : List Int) (uniques : List α) (v : α) :
    Nat → Nat → Option Nat
  | 0, _ => none
  | fuel + 1, j =>
    if probeStop slots uniques v j then some j
    else probe slots uniques v fuel ((j + 1) % slots.length)

/-- The re-insertion loop of `double_table_size` (encoding.rs lines
334-351), processing the old slots in order; the `none` fallbacks are
unreachable on reachable states (slots hold valid indices and the new
table keeps empty slots). -/
def rehashLoop {α : Type} [DecidableEq α] (h : α → Nat) (uniques : List α) :
    List Int → List Int → List Int
  | [], newSlots => newSlots
  | idx :: oldRest, newSlots =>
    if idx = -1 then rehashLoop h uniques oldRest newSlots
    else
      match uniques.get? idx.toNat with
      | none => rehashLoop h uniques oldRest newSlots
      | some value =>
        match probe newSlots uniques value newSlots.length
            (h value % newSlots.length) with
        | none => rehashLoop h uniques oldRest newSlots
        | some j => rehashLoop h uniques oldRest (newSlots.set j idx)

/-- `double_table_size` (encoding.rs lines 329-356): double the
capacity and re-insert every occupied slot against the new mask. -/
def doubleTableSize {α : Type} [DecidableEq α] (h : α → Nat) (s : DictEncoder α) :
    DictEncoder α where
  hashTableSize := s.hashTableSize * 2
  hashSlots := rehashLoop h s.uniques s.hashSlots
    (List.replicate (s.hashTableSize * 2) (-1))
  bufferedIndices := s.bufferedIndices
  uniques := s.uniques

/-- `put_one` (encoding.rs lines 288-313): probe; on an empty slot
record the new dictionary index, append the value to `uniques` and
double the table when the load factor is exceeded; in all cases append
the resulting index to the buffered index sequence. -/
def putOne {α : Type} [DecidableEq α] (h : α → Nat) (s : DictEncoder α) (v : α) :
    DictEncoder α :=
  match probe s.hashSlots s.uniques v s.hashTableSize (h v % s.hashTableSize) with
  | none => s
  | some j =>
    if slotAt s.hashSlots j = -1 then
      let index : Int := (s.uniques.length : Nat)
      let s1 : DictEncoder α :=
        { s with hashSlots := s.hashSlots.set j index, uniques := s.uniques ++ [v] }
      let s2 : DictEncoder α :=
        if dictLoadThreshold s1.hashTableSize < s1.uniques.length
        then doubleTableSize h s1 else s1
      { s2 with bufferedIndices := s2.bufferedIndices ++ [index] }
    else
      { s with bufferedIndices := s.bufferedIndices ++ [slotAt s.hashSlots j] }

/-- `Encoder::put` for `DictEncoder` (encoding.rs lines 360-366). -/
def put {α : Type} [DecidableEq α] (h : α → Nat) (s : DictEncoder α) (values : List α) :
    DictEncoder α :=
  values.foldl (putOne h) s

/-- `bit_width` (encoding.rs lines 321-327). -/
def bitWidth {α : Type} (s : DictEncoder α) : Nat := dictBitWidth s.uniques.length

/-- `write_indices` (encoding.rs lines 266-286): the first byte holds
`bit_width`; `RleEncoder::new_from_buf(bit_width, buffer, 1)` writes
the hybrid run of the buffered indices from offset 1 and `consume`
returns the written region; the index buffer is cleared and the
dictionary is untouched. -/
def writeIndices {α : Type} (s : DictEncoder α) : List Nat × DictEncoder α :=
  (s.bitWidth :: rleHybridEncode s.bitWidth (s.bufferedIndices.map Int.toNat),
   { s with bufferedIndices := [] })

/-- `Encoder::flush_buffer` for `DictEncoder` (encoding.rs lines
373-376) forwards to `write_indices`. -/
def flushBuffer {α : Type} (s : DictEncoder α) : List Nat × DictEncoder α :=
  writeIndices s

end DictEncoder

/-! ## Claim C4 -/

/-- **C4.** For every `DictEncoder` state, `flush_buffer`
(= `write_indices`) returns exactly one byte equal to `bit_width()`
followed by the RLE/bit-packed hybrid encoding of the buffered indices
at that width, and it clears the buffered index sequence while leaving
the dictionary (`uniques`, `num_entries`, hash table) unchanged. -/
theorem dictEncoder_flushBuffer_spec (α : Type) [DecidableEq α] (s : DictEncoder α) :
    (DictEncoder.flushBuffer s).1 =
      DictEncoder.bitWidth s ::
        rleHybridEncode (DictEncoder.bitWidth s) (s.bufferedIndices.map Int.toNat) ∧
    (DictEncoder.flushBuffer s).2.bufferedIndices = [] ∧
    (DictEncoder.flushBuffer s).2.uniques = s.uniques ∧
    DictEncoder.numEntries (DictEncoder.flushBuffer s).2 = DictEncoder.numEntries s ∧
    (DictEncoder.flushBuffer s).2.hashSlots = s.hashSlots ∧
    (DictEncoder.flushBuffer s).2.hashTableSize = s.hashTableSize :=
  ⟨rfl, rfl, rfl, rfl, rfl, rfl⟩

/-! ## Claim C1: invariants of the dictionary hash table

Throughout, `slotAt` is the table access and `-1` the empty-slot
sentinel. -/

namespace DictEncoder

theorem slotAt_cons_succ (a : Int) (l : List Int) (p : Nat) :
    slotAt (a :: l) (p + 1) = slotAt l p := rfl

theorem slotAt_set_self : ∀ (l : List Int) (p : Nat), p < l.length → ∀ x : Int,
    slotAt (l.set p x) p = x
  | _ :: _, 0, _, _ => rfl
  | _ :: l, p + 1, h, x => slotAt_set_self l p (by simpa using h) x

theorem slotAt_set_ne : ∀ (l : List Int) (p q : Nat), p ≠ q → ∀ x : Int,
    slotAt (l.set p x) q = slotAt l q
  | [], _, _, _, _ => rfl
  | _ :: _, 0, 0, h, _ => absurd rfl h
  | _ :: _, 0, _ + 1, _, _ => rfl
  | _ :: _, _ + 1, 0, _, _ => rfl
  | _ :: l, p + 1, q + 1, h, x =>
    slotAt_set_ne l p q (fun hh => h (by rw [hh])) x

theorem slotAt_replicate (n j : Nat) : slotAt (List.replicate n (-1)) j = -1 := by
  induction n generalizing j with
  | zero => rfl
  | succ n ih =>
    cases j with
    | zero => rfl
    | succ j => simpa [List.replicate, slotAt_cons_succ] using ih j

theorem mem_of_slotAt : ∀ (l : List Int) (j : Nat), j < l.length → ∀ x : Int,
    slotAt l j = x → x ∈ l
  | a :: _, 0, _, x, hx => by
      rw [show slotAt (a :: _) 0 = a from rfl] at hx
      exact hx ▸ List.mem_cons_self a _
  | a :: l, j + 1, h, x, hx =>
      List.mem_cons_of_mem a (mem_of_slotAt l j (by simpa using h) x hx)

theorem slotAt_of_mem : ∀ (l : List Int) (x : Int), x ∈ l →
    ∃ j : Nat, j < l.length ∧ slotAt l j = x := by
  intro l x hx
  induction l with
  | nil => cases hx
  | cons a l ih =>
    rcases List.mem_cons.mp hx with h | h
    · exact ⟨0, by simp, h.symm⟩
    · obtain ⟨j, hj, hs⟩ := ih h
      exact ⟨j + 1, by simpa using hj, hs⟩

theorem mem_set_cases : ∀ (l : List Int) (p : Nat) (y x : Int),
    x ∈ l.set p y → x = y ∨ x ∈ l
  | [], _, _, _, hx => Or.inr (by simpa using hx)
  | a :: l, 0, y, x, hx => by
      rcases List.mem_cons.mp hx with h | h
      · exact Or.inl h
      · exact Or.inr (List.mem_cons_of_mem a h)
  | a :: l, p + 1, y, x, hx => by
      rcases List.mem_cons.mp hx with h | h
      · exact Or.inr (h ▸ List.mem_cons_self a l)
      · rcases mem_set_cases l p y x h with h2 | h2
        · exact Or.inl h2
        · exact Or.inr (List.mem_cons_of_mem a h2)

theorem mem_set_self (l : List Int) (p : Nat) (hp : p < l.length) (y : Int) :
    y ∈ l.set p y :=
  mem_of_slotAt _ p (by simpa using hp) y (slotAt_set_self l p hp y)

theorem mem_set_of_ne_empty (l : List Int) (p : Nat) (y x : Int)
    (hx : x ∈ l) (hpe : slotAt l p = -1) (hxe : x ≠ -1) : x ∈ l.set p y := by
  obtain ⟨j, hj, hs⟩ := slotAt_of_mem l x hx
  have hjp : p ≠ j := by
    intro hh
    rw [hh, hs] at hpe
    exact hxe hpe
  exact mem_of_slotAt _ j (by simpa using hj) x ((slotAt_set_ne l p j hjp y).trans hs)

theorem count_neg_one_set : ∀ (l : List Int) (p : Nat), p < l.length →
    slotAt l p = -1 → ∀ x : Int, x ≠ -1 →
    (l.set p x).count (-1) + 1 = l.count (-1)
  | a :: l, 0, _, hs, x, hx => by
      have ha : a = -1 := hs
      simp [List.count_cons, ha, hx]
  | a :: l, p + 1, h, hs, x, hx => by
      have := count_neg_one_set l p (by simpa using h) hs x hx
      simp only [List.set, List.count_cons]
      omega

theorem count_neg_add_occupied : ∀ l : List Int,
    l.count (-1) + (l.filter fun x => !decide (x = -1)).length = l.length := by
  intro l
  induction l with
  | nil => rfl
  | cons a l ih =>
    by_cases ha : a = -1 <;> simp [List.count_cons, List.filter_cons, ha] <;> omega

theorem mod_shift_inj {L a t d : Nat} (ht : t < L) (hd : d < L)
    (heq : (a + t) % L = (a + d) % L) : t = d := by
  have h1 : t % L = d % L := Nat.ModEq.add_left_cancel' a heq
  calc t = t % L := (Nat.mod_eq_of_lt ht).symm
    _ = d % L := h1
    _ = d := Nat.mod_eq_of_lt hd

theorem exists_shift {L start e : Nat} (hs : start < L) (he : e < L) :
    ∃ t : Nat, t < L ∧ (start + t) % L = e := by
  have hL : 0 < L := Nat.lt_of_le_of_lt (Nat.zero_le _) hs
  refine ⟨(L - start + e) % L, Nat.mod_lt _ hL, ?_⟩
  have h1 : (start + (L - start + e) % L) % L = (start + (L - start + e)) % L :=
    Nat.ModEq.add_left start (Nat.mod_modEq (L - start + e) L)
  rw [h1]
  have h2 : start + (L - start + e) = L + e := by omega
  rw [h2, Nat.add_mod_left, Nat.mod_eq_of_lt he]

/-- The linear-probing invariant of the slot table relative to the
dictionary: occupied slots hold valid indices, no index appears twice,
and every stored index is reachable from the home slot of its value by
a probe path of occupied slots. -/
structure StoredInv {α : Type} (h : α → Nat) (slots : List Int) (uniques : List α) :
    Prop where
  valid : ∀ j, j < slots.length → slotAt slots j ≠ -1 →
    ∃ i : Nat, i < uniques.length ∧ slotAt slots j = (i : Int)
  inj : ∀ j j' : Nat, j < slots.length → j' < slots.length →
    slotAt slots j ≠ -1 → slotAt slots j = slotAt slots j' → j = j'
  found : ∀ (i : Nat) (v : α), (i : Int) ∈ slots → uniques.get? i = some v →
    ∃ d : Nat, d < slots.length ∧
      slotAt slots ((h v % slots.length + d) % slots.length) = (i : Int) ∧
      ∀ t < d, slotAt slots ((h v % slots.length + t) % slots.length) ≠ -1

theorem probe_finds {α : Type} [DecidableEq α] (slots : List Int) (uniques : List α)
    (v : α) :
    ∀ fuel start : Nat, start < slots.length →
      (∃ t, t < fuel ∧ probeStop slots uniques v ((start + t) % slots.length)) →
      ∃ t0, t0 < fuel ∧
        probe slots uniques v fuel start = some ((start + t0) % slots.length) ∧
        probeStop slots uniques v ((start + t0) % slots.length) ∧
        ∀ t < t0, ¬ probeStop slots uniques v ((start + t) % slots.length) := by
  intro fuel
  induction fuel with
  | zero =>
    rintro start _ ⟨t, ht, _⟩
    omega
  | succ fuel ih =>
    intro start hstart hex
    by_cases h0 : probeStop slots uniques v start
    · refine ⟨0, Nat.succ_pos _, ?_, ?_, by omega⟩
      · rw [show probe slots uniques v (fuel + 1) start = some start from by
          simp [probe, h0]]
        rw [Nat.add_zero, Nat.mod_eq_of_lt hstart]
      · rw [Nat.add_zero, Nat.mod_eq_of_lt hstart]
        exact h0
    · have hL : 0 < slots.length := Nat.lt_of_le_of_lt (Nat.zero_le _) hstart
      have hstart'lt : (start + 1) % slots.length < slots.length := Nat.mod_lt _ hL
      have hshift : ∀ u : Nat,
          ((start + 1) % slots.length + u) % slots.length =
            (start + (u + 1)) % slots.length := by
        intro u
        rw [Nat.mod_add_mod]
        congr 1
        omega
      obtain ⟨t, ht, hstop⟩ := hex
      have ht0 : t ≠ 0 := by
        intro hh
        subst hh
        rw [Nat.add_zero, Nat.mod_eq_of_lt hstart] at hstop
        exact h0 hstop
      obtain ⟨u, rfl⟩ : ∃ u, t = u + 1 := ⟨t - 1, by omega⟩
      have hex' : ∃ u', u' < fuel ∧
          probeStop slots uniques v (((start + 1) % slots.length + u') % slots.length) := by
        refine ⟨u, by omega, ?_⟩
        rw [hshift]
        exact hstop
      obtain ⟨t0, ht0lt, hprobe, hstop0, hmin⟩ := ih ((start + 1) % slots.length)
        hstart'lt hex'
      refine ⟨t0 + 1, by omega, ?_, ?_, ?_⟩
      · rw [show probe slots uniques v (fuel + 1) start
            = probe slots uniques v fuel ((start + 1) % slots.length) from by
          simp [probe, h0]]
        rw [hprobe, hshift]
      · rw [← hshift]
        exact hstop0
      · intro t hlt
        cases t with
        | zero =>
          rw [Nat.add_zero, Nat.mod_eq_of_lt hstart]
          exact h0
        | succ u' =>
          rw [← hshift]
          exact hmin u' (by omega)

theorem probe_hit {α : Type} [DecidableEq α] (h : α → Nat) (slots : List Int)
    (uniques : List α) (inv : StoredInv h slots uniques) (nodup : uniques.Nodup)
    (i : Nat) (v : α) (hmem : (i : Int) ∈ slots) (hi : uniques.get? i = some v) :
    ∃ p, probe slots uniques v slots.length (h v % slots.length) = some p ∧
      slotAt slots p = (i : Int) := by
  obtain ⟨d, hd, hslot, hpath⟩ := inv.found i v hmem hi
  have hL : 0 < slots.length := Nat.lt_of_le_of_lt (Nat.zero_le _) hd
  have halt : h v % slots.length < slots.length := Nat.mod_lt _ hL
  have hstopd : probeStop slots uniques v
      ((h v % slots.length + d) % slots.length) := by
    right
    rw [hslot]
    simpa using hi
  obtain ⟨t0, ht0, hprobe, hstop0, hmin⟩ :=
    probe_finds slots uniques v slots.length _ halt ⟨d, hd, hstopd⟩
  have ht0d : t0 = d := by
    rcases Nat.lt_trichotomy t0 d with hlt | heq | hgt
    · exfalso
      have hne := hpath t0 hlt
      rcases hstop0 with hemp | hmatch
      · exact hne hemp
      · have hq : (h v % slots.length + t0) % slots.length < slots.length :=
          Nat.mod_lt _ hL
        obtain ⟨i', hi'lt, hi'⟩ := inv.valid _ hq hne
        rw [hi'] at hmatch
        rw [Int.toNat_natCast] at hmatch
        have hii : i' = i := List.get?_inj hi'lt nodup (hmatch.trans hi.symm)
        have hpos := inv.inj ((h v % slots.length + t0) % slots.length)
          ((h v % slots.length + d) % slots.length) hq (Nat.mod_lt _ hL) hne
          (by rw [hi', hii, ← hslot])
        have := mod_shift_inj (lt_trans hlt hd) hd hpos
        omega
    · exact heq
    · exact absurd hstopd (hmin d hgt)
  refine ⟨(h v % slots.length + d) % slots.length, ?_, hslot⟩
  rw [← ht0d]
  exact hprobe

theorem probe_miss {α : Type} [DecidableEq α] (slots : List Int) (uniques : List α)
    (v : α) (hL : 0 < slots.length)
    (hnomatch : ∀ j, j < slots.length → slotAt slots j ≠ -1 →
      ¬ uniques.get? (slotAt slots j).toNat = some v)
    (e : Nat) (he : e < slots.length) (hee : slotAt slots e = -1)
    (start : Nat) (hstart : start < slots.length) :
    ∃ d, d < slots.length ∧
      probe slots uniques v slots.length start = some ((start + d) % slots.length) ∧
      slotAt slots ((start + d) % slots.length) = -1 ∧
      ∀ t < d, slotAt slots ((start + t) % slots.length) ≠ -1 := by
  have hstop_iff : ∀ j, j < slots.length →
      (probeStop slots uniques v j ↔ slotAt slots j = -1) := by
    intro j hj
    constructor
    · intro hs
      rcases hs with hs | hs
      · exact hs
      · by_contra hne
        exact hnomatch j hj hne hs
    · exact fun hh => Or.inl hh
  obtain ⟨te, hte, hteq⟩ := exists_shift hstart he
  have hstope : probeStop slots uniques v ((start + te) % slots.length) := by
    rw [hstop_iff _ (Nat.mod_lt _ hL), hteq]
    exact hee
  obtain ⟨t0, ht0, hprobe, hstop0, hmin⟩ :=
    probe_finds slots uniques v slots.length start hstart ⟨te, hte, hstope⟩
  refine ⟨t0, ht0, hprobe, (hstop_iff _ (Nat.mod_lt _ hL)).mp hstop0, ?_⟩
  intro t hlt hemp
  exact hmin t hlt ((hstop_iff _ (Nat.mod_lt _ hL)).mpr hemp)

theorem natCast_ne_negOne (i : Nat) : (i : Int) ≠ -1 := by
  have := Int.natCast_nonneg i
  omega

theorem get?_some_lt {α : Type} {l : List α} {n : Nat} {a : α}
    (hl : l.get? n = some a) : n < l.length := by
  by_contra hn
  rw [List.get?_eq_none.mpr (by omega)] at hl
  cases hl

theorem storedInv_append {α : Type} [DecidableEq α] (h : α → Nat) (slots : List Int)
    (uniques : List α) (inv : StoredInv h slots uniques) (v : α) :
    StoredInv h slots (uniques ++ [v]) := by
  refine ⟨?_, inv.inj, ?_⟩
  · intro j hj hne
    obtain ⟨i, hi, hs⟩ := inv.valid j hj hne
    exact ⟨i, by simp only [List.length_append, List.length_cons]; omega, hs⟩
  · intro i w hmem hw
    obtain ⟨j, hj, hs⟩ := slotAt_of_mem slots _ hmem
    obtain ⟨i', hi', hs'⟩ := inv.valid j hj (by rw [hs]; exact natCast_ne_negOne i)
    have hii : i = i' := by
      rw [hs] at hs'
      exact_mod_cast hs'
    have hilt : i < uniques.length := hii ▸ hi'
    rw [List.get?_append hilt] at hw
    exact inv.found i w hmem hw

theorem storedInv_insert {α : Type} [DecidableEq α] (h : α → Nat) (slots : List Int)
    (uniques : List α) (inv : StoredInv h slots uniques)
    (idx : Nat) (w : α) (hidx : uniques.get? idx = some w)
    (hfresh : (idx : Int) ∉ slots)
    (d : Nat) (hd : d < slots.length)
    (hpe : slotAt slots ((h w % slots.length + d) % slots.length) = -1)
    (hpath : ∀ t < d, slotAt slots ((h w % slots.length + t) % slots.length) ≠ -1) :
    StoredInv h (slots.set ((h w % slots.length + d) % slots.length) idx) uniques := by
  have hL : 0 < slots.length := Nat.lt_of_le_of_lt (Nat.zero_le _) hd
  set p := (h w % slots.length + d) % slots.length with hpdef
  have hp : p < slots.length := Nat.mod_lt _ hL
  have hslotp : slotAt (slots.set p (idx : Int)) p = (idx : Int) :=
    slotAt_set_self slots p hp _
  have hslotne : ∀ q : Nat, q ≠ p →
      slotAt (slots.set p (idx : Int)) q = slotAt slots q := by
    intro q hq
    exact slotAt_set_ne slots p q (fun hh => hq hh.symm) _
  refine ⟨?_, ?_, ?_⟩
  · intro j hj hne
    rw [List.length_set] at hj
    by_cases hjp : j = p
    · subst hjp
      exact ⟨idx, get?_some_lt hidx, hslotp⟩
    · rw [hslotne j hjp] at hne ⊢
      exact inv.valid j hj hne
  · intro j j' hj hj' hne heq
    rw [List.length_set] at hj hj'
    by_cases hjp : j = p <;> by_cases hjp' : j' = p
    · rw [hjp, hjp']
    · exfalso
      subst hjp
      rw [hslotp, hslotne j' hjp'] at heq
      exact hfresh (mem_of_slotAt slots j' hj' _ heq.symm)
    · exfalso
      subst hjp'
      rw [hslotne j hjp, hslotp] at heq
      exact hfresh (mem_of_slotAt slots j hj _ heq)
    · rw [hslotne j hjp] at hne
      rw [hslotne j hjp, hslotne j' hjp'] at heq
      exact inv.inj j j' hj hj' hne heq
  · intro i u hmem hu
    simp only [List.length_set]
    rcases mem_set_cases slots p _ _ hmem with hcase | hcase
    · have hiidx : i = idx := by exact_mod_cast hcase
      subst hiidx
      have huw : u = w := by
        rw [hidx] at hu
        exact (Option.some_inj.mp hu).symm
      subst huw
      refine ⟨d, hd, hslotp, ?_⟩
      intro t ht
      have hne := hpath t ht
      have htp : (h u % slots.length + t) % slots.length ≠ p := by
        intro hh
        rw [hh] at hne
        exact hne hpe
      rw [hslotne _ htp]
      exact hne
    · obtain ⟨d', hd', hslot', hpath'⟩ := inv.found i u hcase hu
      have hqp : (h u % slots.length + d') % slots.length ≠ p := by
        intro hh
        rw [hh, hpe] at hslot'
        exact natCast_ne_negOne i hslot'.symm
      refine ⟨d', hd', ?_, ?_⟩
      · rw [hslotne _ hqp]
        exact hslot'
      · intro t ht
        have hne := hpath' t ht
        have htp : (h u % slots.length + t) % slots.length ≠ p := by
          intro hh
          rw [hh] at hne
          exact hne hpe
        rw [hslotne _ htp]
        exact hne

theorem slotAt_eq_get (l : List Int) (j : Nat) (hj : j < l.length) :
    slotAt l j = l.get ⟨j, hj⟩ := by
  simp [slotAt, List.getD, List.getElem?_eq_getElem hj, List.get_eq_getElem]

theorem rehashLoop_inv {α : Type} [DecidableEq α] (h : α → Nat) (uniques : List α)
    (nodup : uniques.Nodup) :
    ∀ (old newSlots : List Int) (k : Nat),
      0 < newSlots.length →
      uniques.length < newSlots.length →
      StoredInv h newSlots uniques →
      (∀ x ∈ old, x ≠ -1 →
        (∃ i : Nat, i < uniques.length ∧ x = (i : Int)) ∧ x ∉ newSlots) →
      old.Pairwise (fun x y => x ≠ -1 → x ≠ y) →
      newSlots.count (-1) + k = newSlots.length →
      k + (old.filter fun x => !decide (x = -1)).length ≤ uniques.length →
      (rehashLoop h uniques old newSlots).length = newSlots.length ∧
      StoredInv h (rehashLoop h uniques old newSlots) uniques ∧
      (rehashLoop h uniques old newSlots).count (-1) +
        (k + (old.filter fun x => !decide (x = -1)).length) = newSlots.length ∧
      (∀ x : Int, x ∈ newSlots → x ≠ -1 → x ∈ rehashLoop h uniques old newSlots) ∧
      (∀ x ∈ old, x ≠ -1 → x ∈ rehashLoop h uniques old newSlots) := by
  intro old
  induction old with
  | nil =>
    intro newSlots k hL hn inv _ _ hcount _
    refine ⟨rfl, inv, ?_, fun x hx _ => hx, fun x hx => absurd hx (List.not_mem_nil x)⟩
    simpa [rehashLoop, List.filter] using hcount
  | cons idx oldRest ih =>
    intro newSlots k hL hn inv hvalid hpair hcount hroom
    by_cases hidx : idx = -1
    · subst hidx
      have hstep : rehashLoop h uniques (-1 :: oldRest) newSlots =
          rehashLoop h uniques oldRest newSlots := by
        simp [rehashLoop]
      have hfilter : ((-1 : Int) :: oldRest).filter (fun x => !decide (x = -1)) =
          oldRest.filter (fun x => !decide (x = -1)) := by
        simp [List.filter]
      obtain ⟨c1, c2, c3, c4, c5⟩ := ih newSlots k hL hn inv
        (fun x hx hxe => hvalid x (List.mem_cons_of_mem _ hx) hxe)
        (List.Pairwise.of_cons hpair) hcount (by rw [hfilter] at hroom; exact hroom)
      rw [hstep, hfilter]
      refine ⟨c1, c2, c3, c4, ?_⟩
      intro x hx hxe
      rcases List.mem_cons.mp hx with hh | hh
      · exact absurd hh hxe
      · exact c5 x hh hxe
    · obtain ⟨⟨i, hin, rfl⟩, hnotin⟩ := hvalid idx (List.mem_cons_self _ _) hidx
      have hget : uniques.get? i = some (uniques.get ⟨i, hin⟩) := List.get?_eq_get hin
      set value := uniques.get ⟨i, hin⟩ with hvaldef
      have hfilter : (((i : Int)) :: oldRest).filter (fun x => !decide (x = -1)) =
          (i : Int) :: oldRest.filter (fun x => !decide (x = -1)) := by
        simp [List.filter, hidx]
      have hroom' : k + 1 + (oldRest.filter fun x => !decide (x = -1)).length ≤
          uniques.length := by
        rw [hfilter] at hroom
        simp only [List.length_cons] at hroom
        omega
      have hkn : k < uniques.length := by omega
      have hcpos : 0 < newSlots.count (-1) := by omega
      have hmemneg : (-1 : Int) ∈ newSlots := by
        by_contra hne
        rw [List.count_eq_zero_of_not_mem hne] at hcpos
        omega
      obtain ⟨e, he, hee⟩ := slotAt_of_mem newSlots _ hmemneg
      have hnomatch : ∀ j, j < newSlots.length → slotAt newSlots j ≠ -1 →
          ¬ uniques.get? (slotAt newSlots j).toNat = some value := by
        intro j hj hne hmm
        obtain ⟨i', hi'n, hi'⟩ := inv.valid j hj hne
        rw [hi', Int.toNat_natCast] at hmm
        have : i' = i := List.get?_inj hi'n nodup (by rw [hmm, hget])
        subst this
        exact hnotin (mem_of_slotAt newSlots j hj _ hi')
      have hstartlt : h value % newSlots.length < newSlots.length := Nat.mod_lt _ hL
      obtain ⟨d, hd, hprobe, hpe, hpath⟩ := probe_miss newSlots uniques value hL
        hnomatch e he hee _ hstartlt
      have hstep : rehashLoop h uniques ((i : Int) :: oldRest) newSlots =
          rehashLoop h uniques oldRest
            (newSlots.set ((h value % newSlots.length + d) % newSlots.length)
              ((i : Int))) := by
        simp only [rehashLoop, if_neg hidx, Int.toNat_natCast, hget, ← hvaldef, hprobe]
      set p := (h value % newSlots.length + d) % newSlots.length with hpdef
      have hplt : p < newSlots.length := Nat.mod_lt _ hL
      set newSlots' := newSlots.set p ((i : Int)) with hns'
      have hlen' : newSlots'.length = newSlots.length := by
        rw [hns']
        exact List.length_set _ _ _
      have hinv' : StoredInv h newSlots' uniques := by
        rw [hns']
        exact storedInv_insert h newSlots uniques inv i value hget hnotin d hd hpe hpath
      have hvalid' : ∀ x ∈ oldRest, x ≠ -1 →
          (∃ i' : Nat, i' < uniques.length ∧ x = (i' : Int)) ∧ x ∉ newSlots' := by
        intro x hx hxe
        obtain ⟨hex, hnot⟩ := hvalid x (List.mem_cons_of_mem _ hx) hxe
        refine ⟨hex, ?_⟩
        intro hmem'
        rcases mem_set_cases newSlots p _ x hmem' with hh | hh
        · have hneq : (i : Int) ≠ x := (List.pairwise_cons.mp hpair).1 x hx hidx
          exact hneq hh.symm
        · exact hnot hh
      have hcount' : newSlots'.count (-1) + (k + 1) = newSlots'.length := by
        have hcs := count_neg_one_set newSlots p hplt hpe ((i : Int)) (natCast_ne_negOne i)
        rw [← hns'] at hcs
        rw [hlen']
        omega
      obtain ⟨c1, c2, c3, c4, c5⟩ := ih newSlots' (k + 1) (by rw [hlen']; exact hL)
        (by rw [hlen']; exact hn) hinv' hvalid'
        (List.Pairwise.of_cons hpair) hcount' hroom'
      rw [hstep]
      refine ⟨c1.trans hlen', c2, ?_, ?_, ?_⟩
      · rw [hfilter]
        rw [hlen'] at c3
        simp only [List.length_cons]
        omega
      · intro x hx hxe
        exact c4 x (mem_set_of_ne_empty newSlots p _ x hx hpe hxe) hxe
      · intro x hx hxe
        rcases List.mem_cons.mp hx with hh | hh
        · subst hh
          exact c4 _ (mem_set_self newSlots p hplt _) hxe
        · exact c5 x hh hxe

theorem count_replicate_neg : ∀ n : Nat, (List.replicate n (-1 : Int)).count (-1) = n := by
  intro n
  induction n with
  | zero => rfl
  | succ n ih => simp [List.replicate, List.count_cons, ih]

theorem doubleTableSize_ok {α : Type} [DecidableEq α] (h : α → Nat) (s : DictEncoder α)
    (slotsLen : s.hashSlots.length = s.hashTableSize)
    (sizePos : 0 < s.hashTableSize)
    (nodup : s.uniques.Nodup)
    (inv : StoredInv h s.hashSlots s.uniques)
    (hcomplete : ∀ i : Nat, i < s.uniques.length → (i : Int) ∈ s.hashSlots)
    (hcount : s.hashSlots.count (-1) + s.uniques.length = s.hashTableSize) :
    (doubleTableSize h s).hashTableSize = s.hashTableSize * 2 ∧
    (doubleTableSize h s).hashSlots.length = (doubleTableSize h s).hashTableSize ∧
    (doubleTableSize h s).uniques = s.uniques ∧
    (doubleTableSize h s).bufferedIndices = s.bufferedIndices ∧
    StoredInv h (doubleTableSize h s).hashSlots s.uniques ∧
    (∀ i : Nat, i < s.uniques.length → (i : Int) ∈ (doubleTableSize h s).hashSlots) ∧
    (doubleTableSize h s).hashSlots.count (-1) + s.uniques.length =
      (doubleTableSize h s).hashTableSize := by
  have hMlen : (List.replicate (s.hashTableSize * 2) (-1 : Int)).length =
      s.hashTableSize * 2 := List.length_replicate _ _
  have hlenpos : 0 < (List.replicate (s.hashTableSize * 2) (-1 : Int)).length := by
    rw [hMlen]
    omega
  have hnlt : s.uniques.length ≤ s.hashTableSize := by omega
  have hnM : s.uniques.length < (List.replicate (s.hashTableSize * 2) (-1 : Int)).length := by
    rw [hMlen]
    omega
  have hinv0 : StoredInv h (List.replicate (s.hashTableSize * 2) (-1 : Int)) s.uniques := by
    refine ⟨?_, ?_, ?_⟩
    · intro j _ hne
      exact absurd (slotAt_replicate _ j) hne
    · intro j j' _ _ hne heq
      exact absurd (slotAt_replicate _ j) hne
    · intro i v hmem _
      have := List.eq_of_mem_replicate hmem
      exact absurd this (natCast_ne_negOne i)
  have hvalid0 : ∀ x ∈ s.hashSlots, x ≠ -1 →
      (∃ i : Nat, i < s.uniques.length ∧ x = (i : Int)) ∧
        x ∉ List.replicate (s.hashTableSize * 2) (-1 : Int) := by
    intro x hx hxe
    obtain ⟨j, hj, hs⟩ := slotAt_of_mem s.hashSlots x hx
    obtain ⟨i, hi, hsi⟩ := inv.valid j hj (by rw [hs]; exact hxe)
    refine ⟨⟨i, hi, by rw [← hs, hsi]⟩, ?_⟩
    intro hmem
    exact hxe (List.eq_of_mem_replicate hmem)
  have hpw : s.hashSlots.Pairwise (fun x y => x ≠ -1 → x ≠ y) := by
    rw [List.pairwise_iff_get]
    intro i j hij
    intro hne heq
    have hi' : slotAt s.hashSlots i.1 ≠ -1 := by
      rw [slotAt_eq_get _ _ i.isLt]
      exact hne
    have heq' : slotAt s.hashSlots i.1 = slotAt s.hashSlots j.1 := by
      rw [slotAt_eq_get _ _ i.isLt, slotAt_eq_get _ _ j.isLt]
      exact heq
    have := inv.inj i.1 j.1 i.isLt j.isLt hi' heq'
    have hlt : i.1 < j.1 := hij
    omega
  have hocc : (s.hashSlots.filter fun x => !decide (x = -1)).length = s.uniques.length := by
    have := count_neg_add_occupied s.hashSlots
    omega
  obtain ⟨c1, c2, c3, c4, c5⟩ := rehashLoop_inv h s.uniques nodup s.hashSlots
    (List.replicate (s.hashTableSize * 2) (-1 : Int)) 0 hlenpos hnM hinv0 hvalid0 hpw
    (by rw [count_replicate_neg, hMlen]; omega) (by rw [hocc]; omega)
  refine ⟨rfl, ?_, rfl, rfl, c2, ?_, ?_⟩
  · show (rehashLoop h s.uniques s.hashSlots _).length = s.hashTableSize * 2
    rw [c1, hMlen]
  · intro i hi
    exact c5 _ (hcomplete i hi) (natCast_ne_negOne i)
  · show (rehashLoop h s.uniques s.hashSlots _).count (-1) + s.uniques.length =
      s.hashTableSize * 2
    rw [hMlen] at c3
    omega

end DictEncoder

/-- The distinct values of a stream in first-seen order (the spec-side
description of the dictionary contents). -/
def distinctFirstSeen {α : Type} [DecidableEq α] (l : List α) : List α :=
  l.foldl (fun acc v => if v ∈ acc then acc else acc ++ [v]) []

theorem distinctFirstSeen_aux_mem {α : Type} [DecidableEq α] :
    ∀ (l acc : List α) (x : α),
      (x ∈ l.foldl (fun acc v => if v ∈ acc then acc else acc ++ [v]) acc) ↔
        x ∈ acc ∨ x ∈ l := by
  intro l
  induction l with
  | nil => intro acc x; simp
  | cons a l ih =>
    intro acc x
    simp only [List.foldl_cons]
    rw [ih]
    by_cases ha : a ∈ acc
    · rw [if_pos ha]
      simp only [List.mem_cons]
      constructor
      · rintro (hh | hh)
        · exact Or.inl hh
        · exact Or.inr (Or.inr hh)
      · rintro (hh | hh | hh)
        · exact Or.inl hh
        · exact Or.inl (hh ▸ ha)
        · exact Or.inr hh
    · rw [if_neg ha]
      simp only [List.mem_append, List.mem_singleton, List.mem_cons]
      tauto

theorem distinctFirstSeen_aux_nodup {α : Type} [DecidableEq α] :
    ∀ (l acc : List α), acc.Nodup →
      (l.foldl (fun acc v => if v ∈ acc then acc else acc ++ [v]) acc).Nodup := by
  intro l
  induction l with
  | nil => intro acc hacc; exact hacc
  | cons a l ih =>
    intro acc hacc
    simp only [List.foldl_cons]
    by_cases ha : a ∈ acc
    · rw [if_pos ha]
      exact ih acc hacc
    · rw [if_neg ha]
      refine ih _ ?_
      rw [List.nodup_append]
      refine ⟨hacc, List.nodup_singleton a, ?_⟩
      intro x hx hxa
      rw [List.mem_singleton.mp hxa] at hx
      exact ha hx

theorem mem_distinctFirstSeen {α : Type} [DecidableEq α] (l : List α) (x : α) :
    x ∈ distinctFirstSeen l ↔ x ∈ l := by
  rw [distinctFirstSeen, distinctFirstSeen_aux_mem]
  simp

theorem distinctFirstSeen_nodup {α : Type} [DecidableEq α] (l : List α) :
    (distinctFirstSeen l).Nodup :=
  distinctFirstSeen_aux_nodup l [] List.nodup_nil

theorem distinctFirstSeen_snoc {α : Type} [DecidableEq α] (l : List α) (v : α) :
    distinctFirstSeen (l ++ [v]) =
      if v ∈ distinctFirstSeen l then distinctFirstSeen l
      else distinctFirstSeen l ++ [v] := by
  simp [distinctFirstSeen, List.foldl_append]

namespace DictEncoder

/-- The full dictionary-encoder invariant relative to the list of values
put so far: the probing invariants of the table, completeness of the
table over the dictionary, the load bookkeeping, first-seen order of
`uniques`, and correctness of the buffered index stream. -/
structure DictInv {α : Type} [DecidableEq α] (h : α → Nat) (s : DictEncoder α)
    (inputs : List α) : Prop where
  slotsLen : s.hashSlots.length = s.hashTableSize
  sizePos : 0 < s.hashTableSize
  nodup : s.uniques.Nodup
  stored : StoredInv h s.hashSlots s.uniques
  complete : ∀ i : Nat, i < s.uniques.length → (i : Int) ∈ s.hashSlots
  count : s.hashSlots.count (-1) + s.uniques.length = s.hashTableSize
  unLt : s.uniques.length < s.hashTableSize
  uniq : s.uniques = distinctFirstSeen inputs
  idxOk : s.bufferedIndices.map (fun i => s.uniques.get? i.toNat) = inputs.map some

theorem dictInv_new {α : Type} [DecidableEq α] (h : α → Nat) :
    DictInv h (new α) ([] : List α) := by
  refine ⟨List.length_replicate _ _, ?_, List.nodup_nil, ⟨?_, ?_, ?_⟩,
    ?_, ?_, ?_, rfl, rfl⟩
  · show (0 : Nat) < 1024
    norm_num
  · intro j _ hne
    exact absurd (slotAt_replicate _ j) hne
  · intro j j' _ _ hne _
    exact absurd (slotAt_replicate _ j) hne
  · intro i v hmem _
    exact absurd (List.eq_of_mem_replicate hmem) (natCast_ne_negOne i)
  · intro i hi
    exact absurd hi (by simp [new])
  · show (List.replicate initialHashTableSize (-1 : Int)).count (-1) +
      ([] : List α).length = initialHashTableSize
    rw [count_replicate_neg]
    simp
  · show (0 : Nat) < 1024
    norm_num

theorem dictLoadThreshold_lt (size : Nat) (hpos : 0 < size) :
    dictLoadThreshold size < size := by
  rw [dictLoadThreshold, Nat.div_lt_iff_lt_mul (by norm_num : 0 < (2 : Nat) ^ 24)]
  have h1 : (11744051 : Nat) < 2 ^ 24 := by norm_num
  exact mul_lt_mul_of_pos_left h1 hpos

/-- Appending the new index to the buffered sequence preserves the
invariant once the table fields are in shape and the index resolves to
the freshly put value. -/
theorem dictInv_push {α : Type} [DecidableEq α] (h : α → Nat) (s2 : DictEncoder α)
    (inputs : List α) (v : α) (idx : Int)
    (slotsLen : s2.hashSlots.length = s2.hashTableSize)
    (sizePos : 0 < s2.hashTableSize)
    (nodup : s2.uniques.Nodup)
    (stored : StoredInv h s2.hashSlots s2.uniques)
    (complete : ∀ i : Nat, i < s2.uniques.length → (i : Int) ∈ s2.hashSlots)
    (count : s2.hashSlots.count (-1) + s2.uniques.length = s2.hashTableSize)
    (unLt : s2.uniques.length < s2.hashTableSize)
    (uniq : s2.uniques = distinctFirstSeen (inputs ++ [v]))
    (idxOk : s2.bufferedIndices.map (fun i => s2.uniques.get? i.toNat) =
      inputs.map some)
    (hlast : s2.uniques.get? idx.toNat = some v) :
    DictInv h { s2 with bufferedIndices := s2.bufferedIndices ++ [idx] }
      (inputs ++ [v]) := by
  refine ⟨slotsLen, sizePos, nodup, stored, complete, count, unLt, uniq, ?_⟩
  simp only [List.map_append, List.map_cons, List.map_nil]
  rw [idxOk, hlast]

theorem putOne_preserves {α : Type} [DecidableEq α] (h : α → Nat) (s : DictEncoder α)
    (inputs : List α) (v : α) (inv : DictInv h s inputs) :
    DictInv h (putOne h s v) (inputs ++ [v]) := by
  have hL : 0 < s.hashSlots.length := by
    rw [inv.slotsLen]
    exact inv.sizePos
  have hbuffmem : ∀ x ∈ s.bufferedIndices, ∃ u, s.uniques.get? x.toNat = some u := by
    intro x hx
    have hfx : s.uniques.get? x.toNat ∈
        s.bufferedIndices.map (fun i => s.uniques.get? i.toNat) :=
      List.mem_map_of_mem _ hx
    rw [inv.idxOk] at hfx
    obtain ⟨u, _, hu⟩ := List.mem_map.mp hfx
    exact ⟨u, hu.symm⟩
  by_cases hv : v ∈ s.uniques
  · -- the value is already in the dictionary: probe finds its index
    obtain ⟨⟨i, hilt⟩, hig⟩ := List.get_of_mem hv
    have hi : s.uniques.get? i = some v := by
      rw [List.get?_eq_get hilt, hig]
    have himem : (i : Int) ∈ s.hashSlots := inv.complete i hilt
    obtain ⟨p, hprobe, hslot⟩ := probe_hit h s.hashSlots s.uniques inv.stored
      inv.nodup i v himem hi
    rw [inv.slotsLen] at hprobe
    simp only [putOne, hprobe]
    rw [if_neg (by rw [hslot]; exact natCast_ne_negOne i), hslot]
    refine ⟨inv.slotsLen, inv.sizePos, inv.nodup, inv.stored, inv.complete,
      inv.count, inv.unLt, ?_, ?_⟩
    · rw [distinctFirstSeen_snoc, if_pos (by rw [← inv.uniq]; exact hv)]
      exact inv.uniq
    · simp only [List.map_append, List.map_cons, List.map_nil]
      rw [inv.idxOk, Int.toNat_natCast, hi]
  · -- new value: probe reaches an empty slot and the value is inserted
    have hnomatch : ∀ j, j < s.hashSlots.length → slotAt s.hashSlots j ≠ -1 →
        ¬ s.uniques.get? (slotAt s.hashSlots j).toNat = some v := by
      intro j hj hne hmm
      exact hv (List.get?_mem hmm)
    have hcpos : 0 < s.hashSlots.count (-1) := by
      have h1 := inv.count
      have h2 := inv.unLt
      omega
    have hmemneg : (-1 : Int) ∈ s.hashSlots := by
      by_contra hne
      rw [List.count_eq_zero_of_not_mem hne] at hcpos
      omega
    obtain ⟨e, he, hee⟩ := slotAt_of_mem s.hashSlots _ hmemneg
    obtain ⟨d, hd, hprobe, hpe, hpath⟩ := probe_miss s.hashSlots s.uniques v hL
      hnomatch e he hee (h v % s.hashSlots.length) (Nat.mod_lt _ hL)
    set p := (h v % s.hashSlots.length + d) % s.hashSlots.length with hpdef
    have hplt : p < s.hashSlots.length := Nat.mod_lt _ hL
    rw [inv.slotsLen] at hprobe
    have hidxn : (s.uniques ++ [v]).get? s.uniques.length = some v :=
      List.get?_concat_length _ _
    have hS1 : StoredInv h s.hashSlots (s.uniques ++ [v]) :=
      storedInv_append h _ _ inv.stored v
    have hfresh : ((s.uniques.length : Nat) : Int) ∉ s.hashSlots := by
      intro hmem
      obtain ⟨j, hj, hs⟩ := slotAt_of_mem _ _ hmem
      obtain ⟨i', hi', hsi⟩ := inv.stored.valid j hj
        (by rw [hs]; exact natCast_ne_negOne _)
      rw [hsi] at hs
      have : i' = s.uniques.length := by exact_mod_cast hs
      omega
    have hS2 : StoredInv h (s.hashSlots.set p ((s.uniques.length : Nat) : Int))
        (s.uniques ++ [v]) :=
      storedInv_insert h s.hashSlots (s.uniques ++ [v]) hS1 s.uniques.length v
        hidxn hfresh d hd hpe hpath
    have hnodup1 : (s.uniques ++ [v]).Nodup := by
      rw [List.nodup_append]
      refine ⟨inv.nodup, List.nodup_singleton v, ?_⟩
      intro x hx hxa
      rw [List.mem_singleton.mp hxa] at hx
      exact hv hx
    have hlen1 : (s.uniques ++ [v]).length = s.uniques.length + 1 := by
      rw [List.length_append, List.length_cons, List.length_nil]
    have hcomplete1 : ∀ i : Nat, i < (s.uniques ++ [v]).length →
        (i : Int) ∈ s.hashSlots.set p ((s.uniques.length : Nat) : Int) := by
      intro i hi
      rw [hlen1] at hi
      by_cases hin : i < s.uniques.length
      · exact mem_set_of_ne_empty _ p _ _ (inv.complete i hin) hpe (natCast_ne_negOne i)
      · have : i = s.uniques.length := by omega
        rw [this]
        exact mem_set_self _ p hplt _
    have hslotsLen1 : (s.hashSlots.set p ((s.uniques.length : Nat) : Int)).length =
        s.hashTableSize := by
      rw [List.length_set]
      exact inv.slotsLen
    have hcount1 : (s.hashSlots.set p ((s.uniques.length : Nat) : Int)).count (-1) +
        (s.uniques ++ [v]).length = s.hashTableSize := by
      have hcs := count_neg_one_set s.hashSlots p hplt hpe
        ((s.uniques.length : Nat) : Int) (natCast_ne_negOne s.uniques.length)
      have hic := inv.count
      rw [hlen1]
      omega
    have huniq1 : s.uniques ++ [v] = distinctFirstSeen (inputs ++ [v]) := by
      rw [distinctFirstSeen_snoc, if_neg (by rw [← inv.uniq]; exact hv), ← inv.uniq]
    have hidx1 : s.bufferedIndices.map (fun i => (s.uniques ++ [v]).get? i.toNat) =
        inputs.map some := by
      rw [← inv.idxOk]
      apply List.map_congr_left
      intro x hx
      obtain ⟨u, hu⟩ := hbuffmem x hx
      rw [List.get?_append (get?_some_lt hu)]
    have hlastn : (s.uniques ++ [v]).get?
        (((s.uniques.length : Nat) : Int)).toNat = some v := by
      rw [Int.toNat_natCast]
      exact hidxn
    simp only [putOne, hprobe]
    rw [if_pos hpe]
    by_cases hth : dictLoadThreshold s.hashTableSize < (s.uniques ++ [v]).length
    · rw [if_pos hth]
      obtain ⟨k1, k2, k3, k4, k5, k6, k7⟩ := doubleTableSize_ok h
        { s with hashSlots := s.hashSlots.set p ((s.uniques.length : Nat) : Int),
                 uniques := s.uniques ++ [v] }
        hslotsLen1 inv.sizePos hnodup1 hS2 hcomplete1 hcount1
      have hts2 : 0 < s.hashTableSize * 2 := by
        have := inv.sizePos
        omega
      have hun2 : (s.uniques ++ [v]).length < s.hashTableSize * 2 := by
        rw [hlen1]
        have := inv.unLt
        omega
      exact dictInv_push h _ inputs v _ k2 hts2 hnodup1 k5 k6 k7 hun2 huniq1
        hidx1 hlastn
    · rw [if_neg hth]
      have hun1 : (s.uniques ++ [v]).length < s.hashTableSize := by
        rw [hlen1]
        have hthr := dictLoadThreshold_lt s.hashTableSize inv.sizePos
        rw [hlen1] at hth
        omega
      exact dictInv_push h _ inputs v _ hslotsLen1 inv.sizePos hnodup1 hS2
        hcomplete1 hcount1 hun1 huniq1 hidx1 hlastn

theorem put_foldl_inv {α : Type} [DecidableEq α] (h : α → Nat) :
    ∀ (values : List α) (s : DictEncoder α) (inputs : List α),
      DictInv h s inputs →
      DictInv h (values.foldl (putOne h) s) (inputs ++ values) := by
  intro values
  induction values with
  | nil =>
    intro s inputs inv
    simpa using inv
  | cons v rest ih =>
    intro s inputs inv
    simp only [List.foldl_cons]
    have hstep := ih (putOne h s v) (inputs ++ [v]) (putOne_preserves h s inputs v inv)
    simpa [List.append_assoc] using hstep

end DictEncoder

/-- The concatenation of the batches handed to the successive `put`
calls. -/
def joinAll {α : Type} : List (List α) → List α
  | [] => []
  | b :: rest => b ++ joinAll rest

theorem foldl_put_joinAll {α : Type} [DecidableEq α] (h : α → Nat) :
    ∀ (batches : List (List α)) (s : DictEncoder α),
      batches.foldl (fun acc b => DictEncoder.put h acc b) s =
        (joinAll batches).foldl (DictEncoder.putOne h) s := by
  intro batches
  induction batches with
  | nil => intro s; rfl
  | cons b rest ih =>
    intro s
    simp only [List.foldl_cons, joinAll]
    rw [ih, List.foldl_append]
    rfl

theorem distinctFirstSeen_length_card {α : Type} [DecidableEq α] (l : List α) :
    (distinctFirstSeen l).length = l.toFinset.card := by
  have hnd := distinctFirstSeen_nodup l
  have heq : (distinctFirstSeen l).toFinset = l.toFinset := by
    ext x
    simp [List.mem_toFinset, mem_distinctFirstSeen]
  rw [← heq]
  exact (List.toFinset_card_of_nodup hnd).symm

/-- **C1.** For every sequence of values put into a `DictEncoder`
(across any number of `put` calls, including sequences that force hash
table doublings — nothing below restricts the batches): after all puts,
`num_entries()` equals the number of distinct values of the
concatenated input, the `uniques` list holds those distinct values in
first-seen order, and every buffered index resolves through `uniques`
to the input value at its position (the statement is over every value
type with decidable equality and every hash function, covering the
32-bit value hash of the source). -/
theorem dictEncoder_put_spec (α : Type) [DecidableEq α] (h : α → Nat)
    (batches : List (List α)) :
    (batches.foldl (fun acc b => DictEncoder.put h acc b)
        (DictEncoder.new α)).uniques = distinctFirstSeen (joinAll batches) ∧
    DictEncoder.numEntries (batches.foldl (fun acc b => DictEncoder.put h acc b)
        (DictEncoder.new α)) = (joinAll batches).toFinset.card ∧
    (batches.foldl (fun acc b => DictEncoder.put h acc b)
        (DictEncoder.new α)).bufferedIndices.length = (joinAll batches).length ∧
    (batches.foldl (fun acc b => DictEncoder.put h acc b)
        (DictEncoder.new α)).bufferedIndices.map
        (fun i => (batches.foldl (fun acc b => DictEncoder.put h acc b)
          (DictEncoder.new α)).uniques.get? i.toNat) =
      (joinAll batches).map some := by
  rw [foldl_put_joinAll]
  have inv := DictEncoder.put_foldl_inv h (joinAll batches) (DictEncoder.new α) []
    (DictEncoder.dictInv_new h)
  rw [List.nil_append] at inv
  have hlen : ((joinAll batches).foldl (DictEncoder.putOne h)
      (DictEncoder.new α)).bufferedIndices.length = (joinAll batches).length := by
    have hmap := congrArg List.length inv.idxOk
    simpa using hmap
  refine ⟨inv.uniq, ?_, hlen, inv.idxOk⟩
  rw [DictEncoder.numEntries, inv.uniq, distinctFirstSeen_length_card]

end ParquetEnc